import Mathlib

/-!
# Verification of the gh-spam-analysis broker and collector

A shallow embedding, in Lean 4, of the rate-limit token pool, retry/backoff
loop, request coalescer, request fingerprinting, response cache, collector
watermark logic and dedupe hashing of the repository, together with proofs
settling the frozen specification claims.

Machine integers of the source (`i64`, `u32`, `usize`) are modelled as `Int`
or `Nat`; wall-clock instants (`DateTime<Utc>`, `Instant`) as integer
timestamps; `std::time::Duration` values as nanosecond counts; the `f64`
score arithmetic of the token pool as exact rational arithmetic.
-/

namespace GhBroker

/-! ## Token pool (`crates/gh_broker/src/token.rs`) -/

/-- Budget classification tag (`model.rs`, `enum Budget`). -/
inductive Budget where
  | core
  | search
  | graphql
deriving DecidableEq, Repr

/-- Per-token, per-budget rate limit counters (`token.rs`, `RateLimitState`).
`limit` and `remaining` are `i64` in the source, `reset_at` a UTC instant
(modelled as an integer timestamp). -/
structure RateLimitState where
  limit : Int
  remaining : Int
  reset_at : Int
deriving DecidableEq, Repr

/-- `RateLimitState::new`: fresh counters start at 5000/5000 with
`reset_at = now`. -/
def RateLimitState.new (now : Int) : RateLimitState :=
  { limit := 5000, remaining := 5000, reset_at := now }

/-- Header-derived rate limit numbers (`model.rs`, `RateLimitUpdate`). -/
structure RateLimitUpdate where
  limit : Int
  remaining : Int
  reset : Int
deriving DecidableEq, Repr

/-- `RateLimitState::update`: overwrite all three counters with the values
observed on response headers, verbatim. -/
def RateLimitState.update (_s : RateLimitState) (u : RateLimitUpdate) : RateLimitState :=
  { limit := u.limit, remaining := u.remaining, reset_at := u.reset }

/-- `RateLimitState::consume`: `remaining = (remaining - cost).max(0)`. -/
def RateLimitState.consume (s : RateLimitState) (cost : Int) : RateLimitState :=
  { limit := s.limit, remaining := max (s.remaining - cost) 0, reset_at := s.reset_at }

/-- The bounds invariant of the data-model table: `0 ≤ remaining ≤ limit`. -/
def RateLimitState.boundsOk (s : RateLimitState) : Prop :=
  0 ≤ s.remaining ∧ s.remaining ≤ s.limit

instance (s : RateLimitState) : Decidable s.boundsOk := by
  unfold RateLimitState.boundsOk; infer_instance

/-- One pool entry: the token id together with the counters the pool keeps for
the budget under consideration (`TokenState`, restricted to one budget; every
`TokenState` holds a `RateLimitState` for each of the three budgets). -/
structure TokenEntry where
  id : String
  state : RateLimitState
deriving DecidableEq, Repr

/-- Result of `TokenPool::pick_token` (`enum TokenSelection`); the wait is the
duration in the same time unit as `reset_at`. -/
inductive TokenSelection where
  | token (id : String)
  | wait (d : Int)
deriving DecidableEq, Repr

/-- The f64 headroom score `remaining as f64 / limit.max(1) as f64`, modelled
as exact rational arithmetic. -/
def score (s : RateLimitState) : ℚ :=
  (s.remaining : ℚ) / (max s.limit 1 : Int)

/-- Eligibility test of the selection loop: `remaining > 0 || reset_at <= now`. -/
def eligible (now : Int) (s : RateLimitState) : Prop :=
  0 < s.remaining ∨ s.reset_at ≤ now

instance (now : Int) (s : RateLimitState) : Decidable (eligible now s) := by
  unfold eligible; infer_instance

/-- The fold of `TokenPool::pick_token` over the token vector: `best` keeps the
first eligible token of maximal score (strict `>` comparison), `next_reset`
keeps the least `reset_at - now` over ineligible tokens
(`(rl.reset_at - now).to_std().unwrap_or_default()` never truncates for an
ineligible token because its `reset_at` exceeds `now`). -/
def pickLoop (now : Int) :
    List TokenEntry → Option (ℚ × String) → Option Int → Option (ℚ × String) × Option Int
  | [], best, nextReset => (best, nextReset)
  | e :: rest, best, nextReset =>
      if eligible now e.state then
        let sc := score e.state
        let best' := match best with
          | none => some (sc, e.id)
          | some (bestScore, bestId) =>
              if bestScore < sc then some (sc, e.id) else some (bestScore, bestId)
        pickLoop now rest best' nextReset
      else
        let w := e.state.reset_at - now
        let nextReset' := match nextReset with
          | none => some w
          | some existing => some (min existing w)
        pickLoop now rest best nextReset'

/-- `TokenPool::pick_token` for one budget: run the fold, then return the best
eligible token, else the least wait, else the 30 second fallback (30 s expressed
in the ambient time unit as `fallback`). -/
def pickToken (now : Int) (fallback : Int) (pool : List TokenEntry) : TokenSelection :=
  match pickLoop now pool none none with
  | (some (_, id), _) => .token id
  | (none, some w) => .wait w
  | (none, none) => .wait fallback

end GhBroker

namespace GhBroker

/-! ### Facts about the selection fold -/

theorem pickLoop_best_none (now : Int) :
    ∀ (l : List TokenEntry) (nr : Option Int),
      (pickLoop now l none nr).1 = none ↔ ∀ e ∈ l, ¬ eligible now e.state := by
  intro l
  induction l with
  | nil => intro nr; simp [pickLoop]
  | cons e rest ih =>
      intro nr
      by_cases h : eligible now e.state
      · simp only [pickLoop, if_pos h]
        constructor
        · intro hnone
          exfalso
          -- with a `some` accumulator the best slot can never return to `none`
          have : ∀ (l' : List TokenEntry) (acc : ℚ × String) (nr' : Option Int),
              (pickLoop now l' (some acc) nr').1 ≠ none := by
            intro l'
            induction l' with
            | nil => intro acc nr'; simp [pickLoop]
            | cons e' rest' ih' =>
                intro acc nr'
                by_cases h' : eligible now e'.state
                · simp only [pickLoop, if_pos h']
                  rcases acc with ⟨bs, bi⟩
                  by_cases hlt : bs < score e'.state
                  · simpa [hlt] using ih' _ _
                  · simpa [hlt] using ih' _ _
                · simp only [pickLoop, if_neg h']
                  exact ih' _ _
          exact this rest _ nr hnone
        · intro hall
          exact absurd h (by simpa using hall e (by simp))
      · simp only [pickLoop, if_neg h]
        rw [ih]
        constructor
        · intro hall
          intro e' he'
          rcases List.mem_cons.mp he' with rfl | hmem
          · exact h
          · exact hall e' hmem
        · intro hall e' he'
          exact hall e' (List.mem_cons_of_mem _ he')

theorem pickLoop_best_some (now : Int) :
    ∀ (l : List TokenEntry) (best : Option (ℚ × String)) (nr : Option Int)
      (sc : ℚ) (id : String),
      (pickLoop now l best nr).1 = some (sc, id) →
      (best = some (sc, id) ∨
        ∃ e ∈ l, eligible now e.state ∧ e.id = id ∧ score e.state = sc) ∧
      (∀ e ∈ l, eligible now e.state → score e.state ≤ sc) ∧
      (∀ bs bi, best = some (bs, bi) → bs ≤ sc) := by
  intro l
  induction l with
  | nil =>
      intro best nr sc id h
      simp [pickLoop] at h
      refine ⟨Or.inl h, by simp, ?_⟩
      intro bs bi hb
      rw [hb] at h
      simp at h
      exact le_of_eq h.1
  | cons e rest ih =>
      intro best nr sc id h
      by_cases he : eligible now e.state
      · simp only [pickLoop, if_pos he] at h
        rcases best with _ | ⟨bs, bi⟩
        · have := ih (some (score e.state, e.id)) nr sc id h
          rcases this with ⟨horig, hmax, hacc⟩
          constructor
          · rcases horig with heq | ⟨e', he', hel, hid, hsc⟩
            · right
              refine ⟨e, by simp, he, ?_, ?_⟩
              · simpa using congrArg Prod.snd (Option.some.inj heq)
              · simpa using congrArg Prod.fst (Option.some.inj heq)
            · exact Or.inr ⟨e', List.mem_cons_of_mem _ he', hel, hid, hsc⟩
          refine ⟨?_, by intro bs bi hb; cases hb⟩
          intro e' he' hel'
          rcases List.mem_cons.mp he' with rfl | hmem
          · exact hacc _ _ rfl
          · exact hmax e' hmem hel'
        · by_cases hlt : bs < score e.state
          · simp only [if_pos hlt] at h
            have := ih (some (score e.state, e.id)) nr sc id h
            rcases this with ⟨horig, hmax, hacc⟩
            constructor
            · rcases horig with heq | ⟨e', he', hel, hid, hsc⟩
              · right
                refine ⟨e, by simp, he, ?_, ?_⟩
                · simpa using congrArg Prod.snd (Option.some.inj heq)
                · simpa using congrArg Prod.fst (Option.some.inj heq)
              · exact Or.inr ⟨e', List.mem_cons_of_mem _ he', hel, hid, hsc⟩
            refine ⟨?_, ?_⟩
            · intro e' he' hel'
              rcases List.mem_cons.mp he' with rfl | hmem
              · exact hacc _ _ rfl
              · exact hmax e' hmem hel'
            · intro bs' bi' hb
              cases hb
              exact le_of_lt (lt_of_lt_of_le hlt (hacc _ _ rfl))
          · simp only [if_neg hlt] at h
            have := ih (some (bs, bi)) nr sc id h
            rcases this with ⟨horig, hmax, hacc⟩
            constructor
            · rcases horig with heq | ⟨e', he', hel, hid, hsc⟩
              · exact Or.inl heq
              · exact Or.inr ⟨e', List.mem_cons_of_mem _ he', hel, hid, hsc⟩
            refine ⟨?_, ?_⟩
            · intro e' he' hel'
              rcases List.mem_cons.mp he' with rfl | hmem
              · exact le_trans (not_lt.mp hlt) (hacc _ _ rfl)
              · exact hmax e' hmem hel'
            · intro bs' bi' hb
              cases hb
              exact hacc _ _ rfl
      · simp only [pickLoop, if_neg he] at h
        have := ih best _ sc id h
        rcases this with ⟨horig, hmax, hacc⟩
        refine ⟨?_, ?_, hacc⟩
        · rcases horig with heq | ⟨e', he', hel, hid, hsc⟩
          · exact Or.inl heq
          · exact Or.inr ⟨e', List.mem_cons_of_mem _ he', hel, hid, hsc⟩
        · intro e' he' hel'
          rcases List.mem_cons.mp he' with rfl | hmem
          · exact absurd hel' he
          · exact hmax e' hmem hel'

/-- `mergeWait` is the `next_reset` accumulator step of the selection loop. -/
def mergeWait : Option Int → Int → Option Int
  | none, w => some w
  | some x, w => some (min x w)

theorem pickLoop_snd_allIneligible (now : Int) :
    ∀ (l : List TokenEntry) (best : Option (ℚ × String)) (nr : Option Int),
      (∀ e ∈ l, ¬ eligible now e.state) →
      (pickLoop now l best nr).2 =
        (l.map (fun e => e.state.reset_at - now)).foldl mergeWait nr := by
  intro l
  induction l with
  | nil => intro best nr _; simp [pickLoop]
  | cons e rest ih =>
      intro best nr hall
      have he : ¬ eligible now e.state := hall e (by simp)
      simp only [pickLoop, if_neg he, List.map_cons, List.foldl_cons]
      rw [ih best _ (fun e' he' => hall e' (List.mem_cons_of_mem _ he'))]
      rcases nr with _ | x <;> rfl

theorem foldl_mergeWait_some (x : Int) :
    ∀ (ws : List Int), ∃ m, ws.foldl mergeWait (some x) = some m ∧
      m ≤ x ∧ (m = x ∨ m ∈ ws) ∧ ∀ w ∈ ws, m ≤ w := by
  intro ws
  induction ws generalizing x with
  | nil => exact ⟨x, rfl, le_refl x, Or.inl rfl, by simp⟩
  | cons w rest ih =>
      rcases ih (min x w) with ⟨m, hm, hle, hmem, hmin⟩
      refine ⟨m, ?_, ?_, ?_, ?_⟩
      · simpa [mergeWait] using hm
      · exact le_trans hle (min_le_left _ _)
      · rcases hmem with rfl | hmem
        · rcases le_total x w with hxw | hwx
          · exact Or.inl (by simp [min_eq_left hxw])
          · exact Or.inr (by simp [min_eq_right hwx])
        · exact Or.inr (List.mem_cons_of_mem _ hmem)
      · intro w' hw'
        rcases List.mem_cons.mp hw' with rfl | hmem'
        · exact le_trans hle (min_le_right _ _)
        · exact hmin w' hmem'

/-- **C3.** `pick_token(budget)` returns a token only if it is eligible
(`remaining > 0` or `reset_at ≤ now`), and that token has maximal headroom
score `remaining / max(limit, 1)` among the eligible tokens; if the pool is
nonempty and no token is eligible the result is `Wait(Δ)` with `Δ` the least
`reset_at - now` over the (ineligible) tokens; an empty pool yields the
fallback wait (30 s in the source). -/
theorem pick_token_correct (now fallback : Int) (pool : List TokenEntry) :
    (∀ id, pickToken now fallback pool = .token id →
      ∃ e ∈ pool, e.id = id ∧ eligible now e.state ∧
        ∀ e' ∈ pool, eligible now e'.state → score e'.state ≤ score e.state) ∧
    ((∀ e ∈ pool, ¬ eligible now e.state) → pool ≠ [] →
      ∃ d, pickToken now fallback pool = .wait d ∧
        d ∈ pool.map (fun e => e.state.reset_at - now) ∧
        ∀ w ∈ pool.map (fun e => e.state.reset_at - now), d ≤ w) ∧
    (pool = [] → pickToken now fallback pool = .wait fallback) := by
  refine ⟨?_, ?_, ?_⟩
  · intro tid hid
    unfold pickToken at hid
    rcases hfst : (pickLoop now pool none none).1 with _ | ⟨sc, id'⟩
    · rcases hsnd : (pickLoop now pool none none).2 with _ | w <;>
        · exfalso
          rw [show pickLoop now pool none none = ((pickLoop now pool none none).1,
              (pickLoop now pool none none).2) from rfl, hfst, hsnd] at hid
          simp at hid
    · rw [show pickLoop now pool none none = ((pickLoop now pool none none).1,
          (pickLoop now pool none none).2) from rfl, hfst] at hid
      simp only [TokenSelection.token.injEq] at hid
      subst hid
      rcases pickLoop_best_some now pool none none sc id' hfst with ⟨horig, hmax, _⟩
      rcases horig with heq | ⟨e, he, hel, hid', hsc⟩
      · cases heq
      · exact ⟨e, he, hid', hel, fun e' he' hel' => hsc ▸ hmax e' he' hel'⟩
  · intro hall hne
    have hfst : (pickLoop now pool none none).1 = none :=
      (pickLoop_best_none now pool none).mpr hall
    have hsnd := pickLoop_snd_allIneligible now pool none none hall
    rcases pool with _ | ⟨e, rest⟩
    · exact absurd rfl hne
    · rw [List.map_cons, List.foldl_cons] at hsnd
      rcases foldl_mergeWait_some (e.state.reset_at - now)
          (rest.map (fun e => e.state.reset_at - now)) with ⟨m, hm, hle, hmem, hmin⟩
      rw [show mergeWait none (e.state.reset_at - now) = some (e.state.reset_at - now)
          from rfl, hm] at hsnd
      refine ⟨m, ?_, ?_, ?_⟩
      · unfold pickToken
        rw [show pickLoop now (e :: rest) none none =
            ((pickLoop now (e :: rest) none none).1,
             (pickLoop now (e :: rest) none none).2) from rfl, hfst, hsnd]
      · rcases hmem with rfl | hmem
        · simp
        · exact List.mem_cons_of_mem _ hmem
      · intro w hw
        rcases List.mem_cons.mp hw with rfl | hmem'
        · exact hle
        · exact hmin w hmem'
  · intro h
    subst h
    rfl

/-- Witness for `pick_token_correct`: all three branches exercised on concrete
pools — an eligible two-token pool, an exhausted pool, and the empty pool. -/
theorem pick_token_correct_witness :
    (∃ e ∈ [⟨"a", ⟨5000, 100, 0⟩⟩, ⟨"b", ⟨5000, 4000, 0⟩⟩], TokenEntry.id e = "b" ∧
      eligible 10 e.state ∧
      ∀ e' ∈ [(⟨"a", ⟨5000, 100, 0⟩⟩ : TokenEntry), ⟨"b", ⟨5000, 4000, 0⟩⟩],
        eligible 10 e'.state → score e'.state ≤ score e.state) ∧
    (∃ d, pickToken 10 30 [⟨"c", ⟨5000, 0, 40⟩⟩, ⟨"d", ⟨5000, 0, 25⟩⟩] = .wait d ∧
      d ∈ ([⟨"c", ⟨5000, 0, 40⟩⟩, ⟨"d", ⟨5000, 0, 25⟩⟩] :
            List TokenEntry).map (fun e => e.state.reset_at - 10) ∧
      ∀ w ∈ ([⟨"c", ⟨5000, 0, 40⟩⟩, ⟨"d", ⟨5000, 0, 25⟩⟩] :
            List TokenEntry).map (fun e => e.state.reset_at - 10), d ≤ w) ∧
    pickToken 10 30 [] = .wait 30 := by
  refine ⟨?_, ?_, ?_⟩
  · exact (pick_token_correct 10 30 _).1 "b" (by norm_num [pickToken, pickLoop, eligible, score])
  · exact (pick_token_correct 10 30 _).2.1 (by decide) (by decide)
  · exact (pick_token_correct 10 30 _).2.2 rfl

/-! ### C4: the `0 ≤ remaining ≤ limit` bounds under token-pool operations -/

/-- **C4, counterexample.** `RateLimitState::update` copies the header-supplied
numbers verbatim: updating a fresh state with headers claiming
`limit = 5, remaining = 10` leaves `remaining > limit`, so the claimed bounds
invariant does not survive every update. -/
theorem update_bounds_counterexample :
    ¬ ((RateLimitState.new 0).update ⟨5, 10, 0⟩).boundsOk := by
  decide

/-- **C4, amended.** A fresh state satisfies `0 ≤ remaining ≤ limit`; `consume`
with a nonnegative cost (REST cost is 1, GraphQL cost is at least 1) preserves
the bounds; `update` installs the header numbers verbatim, so the bounds hold
after an update exactly when the parsed header values themselves satisfy them. -/
theorem token_bounds_amended :
    (∀ now : Int, (RateLimitState.new now).boundsOk) ∧
    (∀ (s : RateLimitState) (cost : Int), 0 ≤ cost → s.boundsOk →
      (s.consume cost).boundsOk) ∧
    (∀ (s : RateLimitState) (u : RateLimitUpdate),
      (s.update u).boundsOk ↔ 0 ≤ u.remaining ∧ u.remaining ≤ u.limit) := by
  refine ⟨?_, ?_, ?_⟩
  · intro now
    exact ⟨by norm_num [RateLimitState.new], by norm_num [RateLimitState.new]⟩
  · rintro s cost hcost ⟨h0, hl⟩
    refine ⟨le_max_right _ _, ?_⟩
    have : s.remaining - cost ≤ s.limit := by omega
    exact max_le this (le_trans h0 hl)
  · intro s u
    exact Iff.rfl

/-- Witness for `token_bounds_amended` at concrete inputs: a consume of cost 1
on a fresh state keeps the bounds, and an update with in-range header values
restores them. -/
theorem token_bounds_amended_witness :
    ((RateLimitState.new 7).consume 1).boundsOk ∧
    ((RateLimitState.new 7).update ⟨60, 59, 99⟩).boundsOk := by
  refine ⟨?_, ?_⟩
  · exact token_bounds_amended.2.1 (RateLimitState.new 7) 1 (by norm_num) (by decide)
  · exact (token_bounds_amended.2.2 (RateLimitState.new 7) ⟨60, 59, 99⟩).mpr (by decide)

/-! ## Retry loop and backoff (`backoff.rs`, `broker.rs::process_work`) -/

/-- `Duration::MAX` expressed in nanoseconds (`u64::MAX` seconds plus
`999_999_999` nanoseconds); `Duration::saturating_mul` clamps here. -/
def durationMaxNanos : ℕ := (2 ^ 64 - 1) * 1000000000 + 999999999

/-- The deterministic part of `exponential_jitter_backoff`: attempt capped at
8, factor `2^attempt`, `base.saturating_mul(factor)`, then capped at `max`.
All durations are nanosecond counts. -/
def cappedDelayNanos (baseNanos attempt maxNanos : ℕ) : ℕ :=
  let cappedAttempt := min attempt 8
  let factor := 2 ^ cappedAttempt
  let raw := min (baseNanos * factor) durationMaxNanos
  if maxNanos < raw then maxNanos else raw

/-- `f64::round` (round half away from zero), on an exact rational. -/
def roundAwayQ (x : ℚ) : ℤ :=
  if 0 ≤ x then ⌊x + 1 / 2⌋ else -⌊-x + 1 / 2⌋

/-- The jitter magnitude `((nanos as f64) * (jitter_frac as f64)).round()`,
with the product taken exactly (`j` is the exact rational value of the `f32`
jitter fraction). -/
def jitterNanos (nanos : ℕ) (j : ℚ) : ℤ :=
  roundAwayQ ((nanos : ℚ) * j)

/-- `exponential_jitter_backoff` with the random draw made explicit: `delta`
stands for `fastrand::i128(-jitter..=jitter)`. The result is
`(nanos + delta).max(0)` truncated to `u64` (`as u64` wraps modulo `2^64`). -/
def backoffNanos (baseNanos attempt maxNanos : ℕ) (delta : ℤ) : ℕ :=
  let capped := cappedDelayNanos baseNanos attempt maxNanos
  (((capped : ℤ) + delta).toNat) % 2 ^ 64

/-- Outcome of one `execute_once` call, as observed by `process_work`. -/
inductive ExecOutcome where
  | ok
  | errStatus (code : ℕ)
  | errOther
deriving DecidableEq, Repr

/-- The retry classification of `process_work`: an error is not retried when it
carries an `HttpStatusError` whose status is a 4xx client error other than 403
(Forbidden) and 429 (Too Many Requests). -/
def retryAllowed : ExecOutcome → Bool
  | .errStatus c => !(400 ≤ c ∧ c ≤ 499 ∧ c ≠ 403 ∧ c ≠ 429 : Bool)
  | _ => true

/-- What a finished `process_work` run did: how many attempts were made,
whether the waiters were finalized with a success, and the backoff sleeps
(attempt number paired with slept nanoseconds) taken between attempts. -/
structure WorkOutcome where
  attempts : ℕ
  success : Bool
  sleeps : List (ℕ × ℕ)
deriving DecidableEq, Repr

/-- The retry loop of `process_work`: `attempt` is incremented, the work is
executed, success or a non-retryable error (or the 5-attempt cap) finalizes the
waiters, otherwise the loop sleeps `exponential_jitter_backoff(base, attempt-1,
max, jitter)` and retries. `outcomes a` is the result of the `a`-th
`execute_once`; `sleepOf a` the sleep taken after attempt `a`. The fuel is 5 in
`processWork`, enough for the `attempt >= 5` break. -/
def processWorkLoop (outcomes : ℕ → ExecOutcome) (sleepOf : ℕ → ℕ) :
    ℕ → ℕ → WorkOutcome
  | 0, attemptPrev => ⟨attemptPrev, false, []⟩
  | fuel + 1, attemptPrev =>
      let attempt := attemptPrev + 1
      let o := outcomes attempt
      if o = .ok then ⟨attempt, true, []⟩
      else if retryAllowed o = false ∨ 5 ≤ attempt then ⟨attempt, false, []⟩
      else
        let rest := processWorkLoop outcomes sleepOf fuel attempt
        ⟨rest.attempts, rest.success, (attempt, sleepOf attempt) :: rest.sleeps⟩

/-- `process_work` starts with `attempt = 0`. -/
def processWork (outcomes : ℕ → ExecOutcome) (sleepOf : ℕ → ℕ) : WorkOutcome :=
  processWorkLoop outcomes sleepOf 5 0

theorem jitterNanos_nonneg (nanos : ℕ) (j : ℚ) (hj : 0 ≤ j) :
    0 ≤ jitterNanos nanos j := by
  have hx : (0 : ℚ) ≤ (nanos : ℚ) * j := mul_nonneg (by positivity) hj
  unfold jitterNanos roundAwayQ
  rw [if_pos hx]
  have : (0 : ℚ) ≤ (nanos : ℚ) * j + 1 / 2 := by linarith
  exact_mod_cast Int.le_floor.mpr (by exact_mod_cast this)

theorem jitterNanos_le (nanos : ℕ) (j : ℚ) (hj : 0 ≤ j) :
    (jitterNanos nanos j : ℚ) ≤ (nanos : ℚ) * j + 1 / 2 := by
  have hx : (0 : ℚ) ≤ (nanos : ℚ) * j := mul_nonneg (by positivity) hj
  unfold jitterNanos roundAwayQ
  rw [if_pos hx]
  exact Int.floor_le _

/-- Bounds on one backoff sleep: writing `c` for the capped pre-jitter delay
`min(max, base·2^min(attempt,8))` (with `Duration` saturation), any admissible
random draw gives a sleep inside `[c·(1-j) - ½, c·(1+j) + ½]` nanoseconds, the
half-nanosecond slack coming from `f64::round` on the jitter magnitude. -/
theorem backoffNanos_bounds (base a mx : ℕ) (j : ℚ) (delta : ℤ)
    (hj : 0 ≤ j)
    (hl : -(jitterNanos (cappedDelayNanos base a mx) j) ≤ delta)
    (hu : delta ≤ jitterNanos (cappedDelayNanos base a mx) j)
    (hfit : (cappedDelayNanos base a mx : ℤ) +
      jitterNanos (cappedDelayNanos base a mx) j < 2 ^ 64) :
    (cappedDelayNanos base a mx : ℚ) * (1 - j) - 1 / 2 ≤
        (backoffNanos base a mx delta : ℚ) ∧
    (backoffNanos base a mx delta : ℚ) ≤
        (cappedDelayNanos base a mx : ℚ) * (1 + j) + 1 / 2 := by
  set c := cappedDelayNanos base a mx with hc
  set jit := jitterNanos c j with hjit
  have hjit0 : 0 ≤ jit := jitterNanos_nonneg c j hj
  have hjitle : (jit : ℚ) ≤ (c : ℚ) * j + 1 / 2 := jitterNanos_le c j hj
  have hsum0 : (0 : ℤ) ≤ (c : ℤ) + jit := by positivity
  have htn : (((c : ℤ) + delta).toNat : ℤ) ≤ (c : ℤ) + jit := by
    rcases le_or_lt 0 ((c : ℤ) + delta) with hpos | hneg
    · rw [Int.toNat_of_nonneg hpos]; omega
    · rw [Int.toNat_of_nonpos (le_of_lt hneg)]; omega
  have hmodid : ((c : ℤ) + delta).toNat % 2 ^ 64 = ((c : ℤ) + delta).toNat := by
    apply Nat.mod_eq_of_lt
    have : (((c : ℤ) + delta).toNat : ℤ) < 2 ^ 64 := lt_of_le_of_lt htn hfit
    exact_mod_cast this
  have hval : backoffNanos base a mx delta = ((c : ℤ) + delta).toNat := hmodid
  rw [hval]
  rcases le_or_lt 0 ((c : ℤ) + delta) with hpos | hneg
  · have h1 : (((c : ℤ) + delta).toNat : ℤ) = (c : ℤ) + delta :=
      Int.toNat_of_nonneg hpos
    have hcast : ((((c : ℤ) + delta).toNat : ℚ)) = (c : ℚ) + (delta : ℚ) := by
      exact_mod_cast h1
    rw [hcast]
    constructor
    · have hdl : -(jit : ℚ) ≤ (delta : ℚ) := by exact_mod_cast hl
      nlinarith
    · have hdu : (delta : ℚ) ≤ (jit : ℚ) := by exact_mod_cast hu
      nlinarith
  · have hzero : (((c : ℤ) + delta).toNat : ℚ) = 0 := by
      rw [Int.toNat_of_nonpos (le_of_lt hneg)]
      rfl
    rw [hzero]
    constructor
    · -- c + delta < 0 forces c < jit ≤ c·j + ½, so c·(1-j) - ½ < 0
      have hcd : (c : ℚ) + (delta : ℚ) < 0 := by exact_mod_cast hneg
      have hdl : -(jit : ℚ) ≤ (delta : ℚ) := by exact_mod_cast hl
      nlinarith
    · have hc0 : (0 : ℚ) ≤ (c : ℚ) := by positivity
      nlinarith

theorem processWorkLoop_attempts_le (outcomes : ℕ → ExecOutcome) (sleepOf : ℕ → ℕ) :
    ∀ (fuel start : ℕ), start + fuel = 5 →
      (processWorkLoop outcomes sleepOf fuel start).attempts ≤ 5 := by
  intro fuel
  induction fuel with
  | zero => intro start h; simp only [processWorkLoop]; omega
  | succ n ih =>
      intro start h
      simp only [processWorkLoop]
      by_cases hok : outcomes (start + 1) = ExecOutcome.ok
      · rw [if_pos hok]; simp; omega
      · rw [if_neg hok]
        by_cases hbr : retryAllowed (outcomes (start + 1)) = false ∨ 5 ≤ start + 1
        · rw [if_pos hbr]; simp; omega
        · rw [if_neg hbr]
          exact ih (start + 1) (by omega)

theorem processWorkLoop_sleeps (outcomes : ℕ → ExecOutcome) (sleepOf : ℕ → ℕ) :
    ∀ (fuel start : ℕ), ∀ p ∈ (processWorkLoop outcomes sleepOf fuel start).sleeps,
      p.2 = sleepOf p.1 ∧ start + 1 ≤ p.1 ∧ p.1 ≤ 4 := by
  intro fuel
  induction fuel with
  | zero => intro start p hp; simp only [processWorkLoop] at hp; simp at hp
  | succ n ih =>
      intro start p hp
      simp only [processWorkLoop] at hp
      by_cases hok : outcomes (start + 1) = ExecOutcome.ok
      · rw [if_pos hok] at hp; simp at hp
      · rw [if_neg hok] at hp
        by_cases hbr : retryAllowed (outcomes (start + 1)) = false ∨ 5 ≤ start + 1
        · rw [if_pos hbr] at hp; simp at hp
        · rw [if_neg hbr] at hp
          simp only [List.mem_cons] at hp
          rcases hp with rfl | hp
          · exact ⟨rfl, by omega, by omega⟩
          · rcases ih (start + 1) p hp with ⟨h1, h2, h3⟩
            exact ⟨h1, by omega, h3⟩

/-- The capped delay never exceeds the configured maximum. -/
theorem cappedDelayNanos_le (b att m : ℕ) : cappedDelayNanos b att m ≤ m := by
  unfold cappedDelayNanos
  dsimp only
  split
  · exact le_refl m
  · omega

/-- **C5, counterexample.** When the exponential term exceeds the cap the sleep
equals `max`, which is *below* the claimed lower bound `base·2^(a−1)·(1−j)`:
with `base = 2 ns`, retry after attempt `a = 2` (the code passes `attempt−1 =
1`), `max = 3 ns` and zero jitter, the slept duration is 3 ns while the claim
requires at least `2·2^(2−1) = 4` ns. -/
theorem retry_backoff_counterexample :
    backoffNanos 2 1 3 0 = 3 ∧
    ¬ ((2 * 2 ^ (2 - 1) : ℚ) * (1 - 0) ≤ (backoffNanos 2 1 3 0 : ℚ)) := by
  have h : backoffNanos 2 1 3 0 = 3 := by decide
  refine ⟨h, ?_⟩
  rw [h]
  norm_num

/-- **C5, amended.** Per dispatched fingerprint at most 5 attempts occur, and
every retry sleep recorded after attempt `a` (necessarily `1 ≤ a ≤ 4`) lies in
`[c·(1−j) − ½ ns, c·(1+j) + ½ ns]` where `c = min(max, base·2^(a−1))` is the
*capped* exponential delay (the claim's uncapped lower bound `base·2^(a−1)·(1−j)`
fails once the cap binds; the half nanosecond absorbs `f64::round` on the jitter
magnitude). `delta a` is the random draw of attempt `a`, constrained to the
fastrand interval `[-jitter, jitter]`, and each capped-plus-jitter value is
assumed to fit `u64` nanoseconds (no `as u64` truncation). -/
theorem retry_backoff_amended (outcomes : ℕ → ExecOutcome) (base mx : ℕ) (j : ℚ)
    (delta : ℕ → ℤ) (hj : 0 ≤ j)
    (hdl : ∀ a, -(jitterNanos (cappedDelayNanos base (a - 1) mx) j) ≤ delta a)
    (hdu : ∀ a, delta a ≤ jitterNanos (cappedDelayNanos base (a - 1) mx) j)
    (hfit : ∀ a, (cappedDelayNanos base (a - 1) mx : ℤ) +
      jitterNanos (cappedDelayNanos base (a - 1) mx) j < 2 ^ 64) :
    (processWork outcomes
        (fun a => backoffNanos base (a - 1) mx (delta a))).attempts ≤ 5 ∧
    ∀ p ∈ (processWork outcomes
        (fun a => backoffNanos base (a - 1) mx (delta a))).sleeps,
      1 ≤ p.1 ∧ p.1 ≤ 4 ∧
      (cappedDelayNanos base (p.1 - 1) mx : ℚ) * (1 - j) - 1 / 2 ≤ (p.2 : ℚ) ∧
      (p.2 : ℚ) ≤ (cappedDelayNanos base (p.1 - 1) mx : ℚ) * (1 + j) + 1 / 2 := by
  constructor
  · exact processWorkLoop_attempts_le outcomes _ 5 0 rfl
  · intro p hp
    rcases processWorkLoop_sleeps outcomes _ 5 0 p hp with ⟨hval, h1, h4⟩
    rcases backoffNanos_bounds base (p.1 - 1) mx j (delta p.1) hj
        (hdl p.1) (hdu p.1) (hfit p.1) with ⟨hlo, hhi⟩
    rw [hval]
    exact ⟨h1, h4, hlo, hhi⟩

/-- Witness for `retry_backoff_amended`: the broker defaults (`base = 500 ms`,
`max = 60 s`, `jitter_frac = 0.2`) with zero draws and an always-failing
transport; the run makes 5 attempts and every sleep respects the interval. -/
theorem retry_backoff_amended_witness :
    (0 : ℚ) ≤ 1 / 5 ∧
    ((processWork (fun _ => .errOther)
        (fun a => backoffNanos 500000000 (a - 1) 60000000000 ((fun _ => 0) a))).attempts ≤ 5 ∧
      ∀ p ∈ (processWork (fun _ => .errOther)
          (fun a => backoffNanos 500000000 (a - 1) 60000000000 ((fun _ => 0) a))).sleeps,
        1 ≤ p.1 ∧ p.1 ≤ 4 ∧
        (cappedDelayNanos 500000000 (p.1 - 1) 60000000000 : ℚ) * (1 - 1 / 5) - 1 / 2 ≤ (p.2 : ℚ) ∧
        (p.2 : ℚ) ≤ (cappedDelayNanos 500000000 (p.1 - 1) 60000000000 : ℚ) * (1 + 1 / 5) + 1 / 2) := by
  refine ⟨by norm_num, ?_⟩
  refine retry_backoff_amended (fun _ => .errOther) 500000000 60000000000 (1 / 5)
      (fun _ => 0) (by norm_num) ?_ ?_ ?_
  · intro a
    exact neg_nonpos_of_nonneg (jitterNanos_nonneg _ _ (by norm_num))
  · intro a
    exact jitterNanos_nonneg _ _ (by norm_num)
  · intro a
    have hc : cappedDelayNanos 500000000 (a - 1) 60000000000 ≤ 60000000000 :=
      cappedDelayNanos_le 500000000 (a - 1) 60000000000
    have hjle : (jitterNanos (cappedDelayNanos 500000000 (a - 1) 60000000000) (1 / 5) : ℚ) ≤
        (cappedDelayNanos 500000000 (a - 1) 60000000000 : ℚ) * (1 / 5) + 1 / 2 :=
      jitterNanos_le _ _ (by norm_num)
    have hcq : ((cappedDelayNanos 500000000 (a - 1) 60000000000 : ℚ)) ≤ 60000000000 := by
      exact_mod_cast hc
    have : (((cappedDelayNanos 500000000 (a - 1) 60000000000 : ℤ) +
        jitterNanos (cappedDelayNanos 500000000 (a - 1) 60000000000) (1 / 5) : ℤ) : ℚ) <
        (2 : ℚ) ^ 64 := by
      push_cast
      nlinarith [hjle, hcq]
    exact_mod_cast this

/-! ## Outcome classification of `execute_once` (`broker.rs`) -/

/-- The status dispatch at the tail of `execute_once`, after rate-limit header
parsing: a 304 with a cached entry returns the cached response; a 2xx returns
(and possibly caches) the response; a response with a `Retry-After` header
sleeps and fails retryably; 403/429 without `Retry-After` sleeps 3 s and fails
retryably; every other status yields `Err(HttpStatusError(status))` — including
a 304 *without* a cached entry, which falls through every earlier arm. -/
def classifyExecution (hasCached : Bool) (status : ℕ) (retryAfterPresent : Bool) :
    ExecOutcome :=
  if status = 304 ∧ hasCached then .ok
  else if 200 ≤ status ∧ status ≤ 299 then .ok
  else if retryAfterPresent then .errOther
  else if status = 403 ∨ status = 429 then .errOther
  else .errStatus status

/-- **C2, counterexample.** A 304 with no cached entry is classified as
`HttpStatusError(304)`; 304 is not a 4xx, so `process_work` *does* retry it:
with every attempt answering 304-without-cache, five attempts occur instead of
the claimed single terminal one. -/
theorem cache_miss_304_counterexample :
    classifyExecution false 304 false = .errStatus 304 ∧
    retryAllowed (.errStatus 304) = true ∧
    (processWork (fun _ => classifyExecution false 304 false) (fun _ => 0)).attempts = 5 := by
  decide

/-- **C2, amended.** A 304 Not Modified arriving without a cached entry yields
an error carrying status 304; the retry loop classifies it as retryable (only
4xx statuses other than 403/429 are terminal), so the broker keeps retrying —
a work item whose every attempt ends in 304-without-cache is finalized with the
error only after the full 5-attempt budget. -/
theorem cache_miss_304_amended (outcomes : ℕ → ExecOutcome) (sleepOf : ℕ → ℕ)
    (h : ∀ a, outcomes a = classifyExecution false 304 false) :
    classifyExecution false 304 false = .errStatus 304 ∧
    retryAllowed (classifyExecution false 304 false) = true ∧
    (processWork outcomes sleepOf).attempts = 5 ∧
    (processWork outcomes sleepOf).success = false := by
  have e : ∀ a, outcomes a = .errStatus 304 := by
    intro a
    rw [h a]
    decide
  refine ⟨by decide, by decide, ?_, ?_⟩ <;>
    simp [processWork, processWorkLoop, e, retryAllowed]

/-- Witness for `cache_miss_304_amended` on the constant 304-without-cache
outcome stream and zero sleeps. -/
theorem cache_miss_304_amended_witness :
    classifyExecution false 304 false = .errStatus 304 ∧
    retryAllowed (classifyExecution false 304 false) = true ∧
    (processWork (fun _ => classifyExecution false 304 false) (fun _ => 1)).attempts = 5 ∧
    (processWork (fun _ => classifyExecution false 304 false) (fun _ => 1)).success = false :=
  cache_miss_304_amended (fun _ => classifyExecution false 304 false) (fun _ => 1)
    (fun _ => rfl)

/-! ## Response cache (`cache.rs`) -/

/-- A cached response (`cache.rs`, `CachedResponse`): `stored_at` is the
`Instant` of insertion, modelled as a nanosecond timestamp. -/
structure CachedResponse where
  etag : Option String
  body : List ℕ
  status : ℕ
  headers : List (String × String)
  stored_at : ℕ
deriving DecidableEq, Repr

/-- `CachedResponse::is_fresh`: `stored_at.elapsed() < ttl`. -/
def CachedResponse.isFresh (e : CachedResponse) (now ttl : ℕ) : Bool :=
  now - e.stored_at < ttl

/-- `NonZeroUsize::new`: `None` exactly on zero. -/
def nonZeroUsizeNew (n : ℕ) : Option ℕ :=
  if n = 0 then none else some n

/-- The capacity computation of `ResponseCache::new`:
`NonZeroUsize::new(capacity.max(1)).unwrap_or_else(|| NonZeroUsize::new(1).unwrap())`.
A `none` result would mean the final `.unwrap()` panics. -/
def responseCacheCapacityChecked (capacity : ℕ) : Option ℕ :=
  match nonZeroUsizeNew (max capacity 1) with
  | some c => some c
  | none => nonZeroUsizeNew 1

/-- The `lru::LruCache` state: entries most-recently-used first. -/
def LruEntries : Type := List (String × CachedResponse)

/-- `LruCache::put`: an existing key is updated and moved to the front,
otherwise the pair is inserted at the front and the least-recently-used entry
(the back) is evicted when the length exceeds the capacity. -/
def lruPut (cap : ℕ) (entries : LruEntries) (k : String) (v : CachedResponse) :
    LruEntries :=
  let pushed : LruEntries := (k, v) :: List.filter (fun q => q.1 ≠ k) entries
  if cap < pushed.length then pushed.take cap else pushed

/-- `LruCache::get`: a hit promotes the entry to most-recently-used. -/
def lruGet (entries : LruEntries) (k : String) :
    Option CachedResponse × LruEntries :=
  match List.find? (fun p => p.1 == k) entries with
  | none => (none, entries)
  | some p => (some p.2, p :: List.filter (fun q => q.1 ≠ k) entries)

/-- `ResponseCache::get`: LRU lookup filtered by freshness. -/
def responseCacheGet (ttl now : ℕ) (entries : LruEntries) (k : String) :
    Option CachedResponse × LruEntries :=
  let r := lruGet entries k
  (Option.filter (fun e => e.isFresh now ttl) r.1, r.2)

/-- **C10.** `ResponseCache::new` never panics: for every capacity the clamped
value `max(capacity, 1)` is nonzero, so the `NonZeroUsize` construction
succeeds and yields a working bounded LRU — a put never grows the store beyond
the clamped capacity, and a put followed by a get of the same key within the
TTL returns the stored entry. -/
theorem response_cache_total (capacity : ℕ) :
    responseCacheCapacityChecked capacity = some (max capacity 1) ∧
    1 ≤ max capacity 1 ∧
    (∀ (entries : LruEntries) (k : String) (v : CachedResponse),
      (lruPut (max capacity 1) entries k v).length ≤
        max (max capacity 1) entries.length) ∧
    (∀ (entries : LruEntries) (k : String) (v : CachedResponse) (now ttl : ℕ),
      v.isFresh now ttl = true →
      (responseCacheGet ttl now (lruPut (max capacity 1) entries k v) k).1 = some v) := by
  refine ⟨?_, le_max_right _ _, ?_, ?_⟩
  · unfold responseCacheCapacityChecked nonZeroUsizeNew
    have h1 : ¬ (max capacity 1 = 0) := by omega
    rw [if_neg h1]
  · intro entries k v
    unfold lruPut
    dsimp only
    split
    · calc (((k, v) :: List.filter (fun q => q.1 ≠ k) entries).take (max capacity 1)).length
          ≤ max capacity 1 := List.length_take_le _ _
        _ ≤ max (max capacity 1) entries.length := le_max_left _ _
    · rename_i hle
      push_neg at hle
      have hf : (List.filter (fun q => q.1 ≠ k) entries).length ≤ entries.length :=
        List.length_filter_le _ _
      simp only [List.length_cons] at hle ⊢
      omega
  · intro entries k v now ttl hfresh
    have hcap : 1 ≤ max capacity 1 := le_max_right _ _
    have hput : ∃ rest, lruPut (max capacity 1) entries k v = (k, v) :: rest := by
      unfold lruPut
      dsimp only
      split
      · rcases mcap : max capacity 1 with _ | c
        · omega
        · exact ⟨_, rfl⟩
      · exact ⟨_, rfl⟩
    rcases hput with ⟨rest, hput⟩
    rw [hput]
    unfold responseCacheGet lruGet
    rw [List.find?_cons_of_pos _ (by simp)]
    simp [Option.filter, hfresh]

/-- Witness for `response_cache_total`: capacity 0 (clamped to 1), one put and
a fresh get on the empty cache. -/
theorem response_cache_total_witness :
    (responseCacheGet 10 5 (lruPut (max 0 1) [] "k" ⟨none, [1, 2], 200, [], 3⟩) "k").1 =
      some ⟨none, [1, 2], 200, [], 3⟩ :=
  (response_cache_total 0).2.2.2 [] "k" ⟨none, [1, 2], 200, [], 3⟩ 5 10 (by decide)

end GhBroker

namespace Collector

/-! ## Collector watermark logic (`collector/src/service.rs::process_repo`,
`db/src/pg.rs::PgWatermarkRepository`) -/

/-- The `newest_ts` update per ingested issue: keep the larger of the current
value and the issue's `updated_at` (`service.rs`, the `Some(match newest_ts …)`
assignment). -/
def newestStep (newest : Option Int) (updated : Int) : Option Int :=
  some (match newest with
    | some existing => if updated < existing then existing else updated
    | none => updated)

/-- The issue scan of `process_repo`, restricted to its watermark effect:
issues arrive in page order (`updated_at` values, flattened); when a stored
watermark exists, the first issue with `updated_at ≤ watermark` sets
`seen_existing` and stops the scan. Returns the final `newest_ts`. -/
def scanIssues (watermark : Option Int) : List Int → Option Int → Option Int
  | [], newest => newest
  | u :: rest, newest =>
      match watermark with
      | some since =>
          if u ≤ since then newest
          else scanIssues watermark rest (newestStep newest u)
      | none => scanIssues watermark rest (newestStep newest u)

/-- `process_repo` seeds `newest_ts` with the stored watermark and, after the
loop, calls `watermarks().set(ts)` exactly when `newest_ts` is `Some(ts)`; the
result is the written value, or `none` when no write happens. -/
def watermarkWrite (stored : Option Int) (issues : List Int) : Option Int :=
  scanIssues stored issues stored

/-- `PgWatermarkRepository::set` is an unconditional
`INSERT … ON CONFLICT DO UPDATE SET last_updated = EXCLUDED.last_updated`:
the stored value is replaced with the given one, with no comparison. -/
def pgWatermarkSet (_stored : Option Int) (ts : Int) : Option Int :=
  some ts

/-- The stored watermark after one `process_repo` run. -/
def processRepoWatermark (stored : Option Int) (issues : List Int) : Option Int :=
  match watermarkWrite stored issues with
  | some ts => pgWatermarkSet stored ts
  | none => stored

theorem scanIssues_some (wm : Option Int) :
    ∀ (issues : List Int) (x : Int) (newest : Option Int), newest = some x →
      ∃ ts, scanIssues wm issues newest = some ts ∧ x ≤ ts := by
  intro issues
  induction issues with
  | nil => intro x newest h; exact ⟨x, by simpa [scanIssues] using h, le_refl x⟩
  | cons u rest ih =>
      intro x newest h
      subst h
      rcases wm with _ | since
      · rcases ih (max x u) (newestStep (some x) u)
            (by simp [newestStep, max_def]; split <;> split <;> omega) with ⟨ts, hts, hle⟩
        exact ⟨ts, by simpa [scanIssues] using hts, le_trans (le_max_left _ _) hle⟩
      · by_cases hu : u ≤ since
        · exact ⟨x, by simp [scanIssues, hu], le_refl x⟩
        · rcases ih (max x u) (newestStep (some x) u)
              (by simp [newestStep, max_def]; split <;> split <;> omega) with ⟨ts, hts, hle⟩
          exact ⟨ts, by simp [scanIssues, hu, hts], le_trans (le_max_left _ _) hle⟩

/-- **C6, counterexample.** A rerun with a stored watermark and no new data
*does* perform a watermark write: `newest_ts` is seeded with the stored value,
so it is `Some(5)` even though no issue was observed, and `set` is called
(rewriting 5). The claimed "persist iff strictly greater / no-op rerun" fails. -/
theorem watermark_counterexample :
    watermarkWrite (some 5) [] = some 5 ∧
    processRepoWatermark (some 5) [] = pgWatermarkSet (some 5) 5 := by
  constructor <;> rfl

/-- **C6, amended.** `process_repo` writes a watermark iff a watermark was
already stored or at least one issue was ingested; the written value is at
least the stored one (so the stored watermark is monotone non-decreasing), and
a rerun whose issues are all stale rewrites exactly the old value — a redundant
equal-value write, not the claimed absence of a write. -/
theorem watermark_amended (stored : Option Int) (issues : List Int) :
    (watermarkWrite stored issues = none ↔ stored = none ∧ issues = []) ∧
    (∀ w ts, stored = some w → watermarkWrite stored issues = some ts → w ≤ ts) ∧
    (∀ w, stored = some w → (∀ u ∈ issues, u ≤ w) →
      watermarkWrite stored issues = some w) := by
  refine ⟨?_, ?_, ?_⟩
  · constructor
    · intro hnone
      rcases stored with _ | w
      · rcases issues with _ | ⟨u, rest⟩
        · exact ⟨rfl, rfl⟩
        · exfalso
          unfold watermarkWrite at hnone
          rcases scanIssues_some none rest u (newestStep none u) rfl with ⟨ts, hts, _⟩
          rw [show scanIssues none (u :: rest) none =
              scanIssues none rest (newestStep none u) from rfl, hts] at hnone
          cases hnone
      · exfalso
        rcases scanIssues_some (some w) issues w (some w) rfl with ⟨ts, hts, _⟩
        unfold watermarkWrite at hnone
        rw [hts] at hnone
        cases hnone
    · rintro ⟨rfl, rfl⟩
      rfl
  · intro w ts hst hwr
    subst hst
    rcases scanIssues_some (some w) issues w (some w) rfl with ⟨ts', hts, hle⟩
    unfold watermarkWrite at hwr
    rw [hts] at hwr
    cases hwr
    exact hle
  · intro w hst hall
    subst hst
    rcases issues with _ | ⟨u, rest⟩
    · rfl
    · have hu : u ≤ w := hall u (by simp)
      simp [watermarkWrite, scanIssues, hu]

/-- Witness for `watermark_amended`: stored watermark 7, one stale issue (5) —
the write rewrites 7 itself. -/
theorem watermark_amended_witness :
    watermarkWrite (some 7) [5] = some 7 :=
  (watermark_amended (some 7) [5]).2.2 7 rfl (by intro u hu; simp at hu; omega)

/-! ## Collection job error message (`service.rs::run_once`,
`pg.rs::PgCollectionJobRepository::update`) -/

/-- Collection job status (`db/src/models.rs`, `CollectionStatus`). -/
inductive CollectionStatus where
  | pending
  | inProgress
  | completed
  | failed
  | error
deriving DecidableEq, Repr

/-- The update message sent by `run_once` on a failed repo: status `Error` for
permanent failures, `Failed` for transient ones, and
`error_message = Some(err.to_string())` — the raw, untruncated rendering
(`truncate_context` is applied only to the log field, never to the update). -/
structure CollectionJobUpdate where
  status : CollectionStatus
  error_message : Option (List Char)
deriving DecidableEq, Repr

def runOnceErrorUpdate (permanent : Bool) (errMsg : List Char) : CollectionJobUpdate :=
  { status := if permanent then .error else .failed, error_message := some errMsg }

/-- The row fields touched by `PgCollectionJobRepository::update`. -/
structure JobRowState where
  status : CollectionStatus
  error_message : Option (List Char)
  failure_count : Int
deriving DecidableEq, Repr

/-- `PgCollectionJobRepository::update`: `Completed` clears the message and
resets `failure_count`; `Failed` stores the message verbatim, returns the job
to `pending` and increments `failure_count`; any other status stores the
message verbatim. No branch truncates. -/
def pgCollectionJobUpdate (row : JobRowState) (u : CollectionJobUpdate) : JobRowState :=
  match u.status with
  | .completed => { status := .completed, error_message := none, failure_count := 0 }
  | .failed => { status := .pending, error_message := u.error_message,
                 failure_count := row.failure_count + 1 }
  | s => { status := s, error_message := u.error_message,
           failure_count := row.failure_count }

/-- The truncation the spec (and the repository's own API test,
`api/tests/collection_jobs.rs`) expect: at most 512 characters, with an
ellipsis appended when the message was cut (513 characters total). -/
def truncate512 (s : List Char) : List Char :=
  if s.length ≤ 512 then s else s.take 512 ++ ['…']

/-- **C9.** Evaluation at the failing input of the repository's own API test: a
job failing with a 1000-character message has the *full* message stored on its
row — `run_once` passes `err.to_string()` unmodified and no `update` branch
truncates — whereas the claimed (and test-asserted) behaviour is a
513-character ellipsis-suffixed value. -/
theorem error_message_not_truncated :
    (pgCollectionJobUpdate ⟨.inProgress, none, 0⟩
        (runOnceErrorUpdate true (List.replicate 1000 'x'))).error_message =
      some (List.replicate 1000 'x') ∧
    (List.replicate 1000 'x').length = 1000 ∧
    (truncate512 (List.replicate 1000 'x')).length = 513 ∧
    truncate512 (List.replicate 1000 'x') ≠ List.replicate 1000 'x' := by
  have hlen : (List.replicate 1000 'x').length = 1000 := List.length_replicate _ _
  have hgt : ¬ ((List.replicate 1000 'x').length ≤ 512) := by rw [hlen]; omega
  have htr : (truncate512 (List.replicate 1000 'x')).length = 513 := by
    unfold truncate512
    rw [if_neg hgt, List.length_append, List.length_take, hlen]
    rfl
  refine ⟨rfl, hlen, htr, ?_⟩
  intro h
  have := congrArg List.length h
  rw [htr, hlen] at this
  cases this

end Collector

namespace GhBroker

/-! ## Coalescer (`broker.rs`: `Inner::register_waiter`, `Inner::finish`) -/

/-- A broker response as cloned to waiters (`BrokerResponse`). -/
structure BrokerResponse where
  status : ℕ
  headers : List (String × String)
  body : List ℕ
deriving DecidableEq, Repr

/-- An `anyhow::Error` as far as the coalescer observes it: its stringified
message (`e.to_string()`). -/
structure AnyhowError where
  msg : String
deriving DecidableEq, Repr

/-- A finished dispatch outcome (`Result<BrokerResponse>`). -/
inductive BrokerResult where
  | ok (resp : BrokerResponse)
  | err (e : AnyhowError)
deriving DecidableEq, Repr

/-- The value `Inner::finish` sends to each waiter: `Ok(response.clone())` on
success, or a fresh error built from the shared stringified message
(`anyhow!("{}", err_msg)` with `err_msg = e.to_string()`) on failure. -/
def deliveredResult : BrokerResult → BrokerResult
  | .ok resp => .ok resp
  | .err e => .err ⟨e.msg⟩

/-- The pending map `fingerprint → PendingEntry { waiters }`; waiter one-shot
senders are identified by numbers. -/
def PendingMap : Type := List (String × List ℕ)

def pendingLookup : PendingMap → String → Option (List ℕ)
  | [], _ => none
  | p :: rest, k => if p.1 = k then some p.2 else pendingLookup rest k

/-- `entry.waiters.push(tx)` on the existing entry of `k`. -/
def pushWaiter : PendingMap → String → ℕ → PendingMap
  | [], _, _ => []
  | p :: rest, k, w => if p.1 = k then (p.1, p.2 ++ [w]) :: rest else p :: pushWaiter rest k w

/-- `Inner::register_waiter`: under the pending lock, an existing entry gets
the new waiter appended (caller is *not* the dispatcher); an absent entry is
created with the single waiter and the caller is elected dispatcher. -/
def registerWaiter (m : PendingMap) (k : String) (w : ℕ) : PendingMap × Bool :=
  match pendingLookup m k with
  | some _ => (pushWaiter m k w, false)
  | none => ((k, [w]) :: m, true)

/-- `Inner::finish`: remove the entry of `k` and fan the (cloned or
re-stringified) result out to every registered waiter. -/
def finishStep (m : PendingMap) (k : String) (r : BrokerResult) :
    PendingMap × List (ℕ × BrokerResult) :=
  let waiters := (pendingLookup m k).getD []
  (List.filter (fun p => p.1 ≠ k) m, waiters.map (fun w => (w, deliveredResult r)))

/-- The coalescer events of a broker run: a caller registering under a
fingerprint, or the dispatcher finishing a fingerprint. -/
inductive BrokerEvent where
  | register (k : String) (w : ℕ)
  | finish (k : String) (r : BrokerResult)

/-- Run a trace against the pending map while counting, for the fingerprint
`k`, dispatch lifetimes currently open: an elected register opens one (the
dispatcher then enqueues exactly one work item whose network attempts all
happen before its `finish`), and the `finish` that removes the entry closes
it. -/
def runKey (k : String) : PendingMap × ℕ → List BrokerEvent → PendingMap × ℕ
  | s, [] => s
  | (m, n), .register k' w :: rest =>
      let r := registerWaiter m k' w
      runKey k (r.1, if r.2 = true ∧ k' = k then n + 1 else n) rest
  | (m, n), .finish k' res :: rest =>
      runKey k ((finishStep m k' res).1,
        if k' = k ∧ (pendingLookup m k').isSome then n - 1 else n) rest

theorem pendingLookup_pushWaiter (k' : String) (w : ℕ) :
    ∀ (m : PendingMap) (k : String),
      (pendingLookup (pushWaiter m k' w) k).isSome = (pendingLookup m k).isSome := by
  intro m
  induction m with
  | nil => intro k; rfl
  | cons p rest ih =>
      intro k
      show (pendingLookup (if p.1 = k' then (p.1, p.2 ++ [w]) :: rest
          else p :: pushWaiter rest k' w) k).isSome = (pendingLookup (p :: rest) k).isSome
      by_cases h1 : p.1 = k'
      · rw [if_pos h1]
        show (if p.1 = k then some (p.2 ++ [w]) else pendingLookup rest k).isSome =
            (if p.1 = k then some p.2 else pendingLookup rest k).isSome
        by_cases h2 : p.1 = k
        · rw [if_pos h2, if_pos h2]
          rfl
        · rw [if_neg h2, if_neg h2]
      · rw [if_neg h1]
        show (if p.1 = k then some p.2 else pendingLookup (pushWaiter rest k' w) k).isSome =
            (if p.1 = k then some p.2 else pendingLookup rest k).isSome
        by_cases h2 : p.1 = k
        · rw [if_pos h2, if_pos h2]
        · rw [if_neg h2, if_neg h2, ih]

theorem pendingLookup_filter (k' : String) :
    ∀ (m : PendingMap) (k : String),
      pendingLookup (List.filter (fun p => p.1 ≠ k') m) k =
        if k = k' then none else pendingLookup m k := by
  intro m
  induction m with
  | nil => intro k; by_cases h : k = k' <;> simp [pendingLookup, h]
  | cons p rest ih =>
      intro k
      by_cases h1 : p.1 = k'
      · rw [List.filter_cons_of_neg (by simp [h1]), ih k]
        by_cases h : k = k'
        · rw [if_pos h, if_pos h]
        · rw [if_neg h, if_neg h]
          show pendingLookup rest k = if p.1 = k then some p.2 else pendingLookup rest k
          rw [if_neg (by rw [h1]; exact fun hh => h hh.symm)]
      · rw [List.filter_cons_of_pos (by simp [h1])]
        show (if p.1 = k then some p.2
            else pendingLookup (List.filter (fun p => p.1 ≠ k') rest) k) =
          if k = k' then none else pendingLookup (p :: rest) k
        by_cases h2 : p.1 = k
        · rw [if_pos h2]
          have hkk' : ¬ (k = k') := by rw [← h2]; exact h1
          rw [if_neg hkk']
          show some p.2 = if p.1 = k then some p.2 else pendingLookup rest k
          rw [if_pos h2]
        · rw [if_neg h2, ih k]
          by_cases h : k = k'
          · rw [if_pos h, if_pos h]
          · rw [if_neg h, if_neg h]
            show pendingLookup rest k = if p.1 = k then some p.2 else pendingLookup rest k
            rw [if_neg h2]

/-- One-step preservation of `open dispatches = entry present`. -/
theorem runKey_inv (k : String) :
    ∀ (trace : List BrokerEvent) (m : PendingMap) (n : ℕ),
      n = (if (pendingLookup m k).isSome = true then 1 else 0) →
      (runKey k (m, n) trace).2 =
        (if (pendingLookup (runKey k (m, n) trace).1 k).isSome = true then 1 else 0) := by
  intro trace
  induction trace with
  | nil => intro m n h; exact h
  | cons e rest ih =>
      intro m n h
      rcases e with ⟨k', w⟩ | ⟨k', res⟩
      · show (runKey k (_, _) rest).2 = _
        rcases hreg : pendingLookup m k' with _ | ws
        · -- elected: fresh entry (k', [w]) is inserted
          apply ih
          by_cases hk : k' = k
          · subst hk
            rw [hreg] at h
            simp [registerWaiter, hreg, pendingLookup, h]
          · simp only [registerWaiter, hreg]
            rw [if_neg (by simp [hk])]
            rw [h]
            have : pendingLookup ((k', [w]) :: m) k = pendingLookup m k := by
              rw [pendingLookup, if_neg hk]
            rw [this]
        · -- not elected: waiter appended, presence unchanged
          apply ih
          simp only [registerWaiter, hreg]
          rw [if_neg (by simp)]
          rw [h, pendingLookup_pushWaiter]
      · show (runKey k (_, _) rest).2 = _
        apply ih
        simp only [finishStep]
        simp only [pendingLookup_filter]
        by_cases hk : k = k'
        · subst hk
          rcases hpres : (pendingLookup m k).isSome with _ | _
          · rw [hpres] at h
            rw [if_neg (by simp [hpres])]
            simpa using h
          · rw [if_pos ⟨rfl, rfl⟩, h, hpres]
            simp
        · rw [if_neg (fun hh => hk hh.1.symm), if_neg hk]
          exact h

/-- **C1.** Coalescing: for every fingerprint `k` and every event trace of the
coalescer started from the empty pending map, at most one dispatch lifetime
(election by `register_waiter` → `finish`) is open at any instant, so at most
one outbound call for `k` is in flight; and `finish` fans out one and the same
value to every coalesced waiter — the cloned response on success, an error
carrying the one shared stringified message on failure. -/
theorem coalescing_correct :
    (∀ (trace : List BrokerEvent) (k : String), (runKey k ([], 0) trace).2 ≤ 1) ∧
    (∀ (m : PendingMap) (k : String) (r : BrokerResult),
      (∀ d ∈ (finishStep m k r).2, d.2 = deliveredResult r) ∧
      (∀ resp, r = .ok resp → deliveredResult r = .ok resp) ∧
      (∀ e, r = .err e → deliveredResult r = .err ⟨e.msg⟩)) := by
  constructor
  · intro trace k
    have h0 : (0 : ℕ) = (if (pendingLookup ([] : PendingMap) k).isSome = true then 1 else 0) := by
      rfl
    have := runKey_inv k trace [] 0 h0
    rw [this]
    split
    · exact le_refl 1
    · exact Nat.zero_le 1
  · intro m k r
    refine ⟨?_, ?_, ?_⟩
    · intro d hd
      simp only [finishStep, List.mem_map] at hd
      rcases hd with ⟨w, _, rfl⟩
      rfl
    · rintro resp rfl
      rfl
    · rintro e rfl
      rfl

/-- Witness for `coalescing_correct`: a concrete trace (two callers coalesce on
one fingerprint, the dispatcher finishes, a later caller re-elects) keeps the
open-dispatch count at most 1, and a concrete `finish` delivers the shared
stringified error to waiter 1. -/
theorem coalescing_correct_witness :
    (runKey "GET /users/alice" ([], 0)
      [.register "GET /users/alice" 1, .register "GET /users/alice" 2,
       .finish "GET /users/alice" (.ok ⟨200, [], [7]⟩),
       .register "GET /users/alice" 3]).2 ≤ 1 ∧
    (1, BrokerResult.err ⟨"secondary rate limit"⟩) ∈
      (finishStep [("GET /users/alice", [1, 2])] "GET /users/alice"
        (.err ⟨"secondary rate limit"⟩)).2 ∧
    (1, BrokerResult.err ⟨"secondary rate limit"⟩).2 =
      deliveredResult (.err ⟨"secondary rate limit"⟩) := by
  refine ⟨coalescing_correct.1 _ _, ?_, ?_⟩
  · simp [finishStep, pendingLookup, deliveredResult]
  · exact (coalescing_correct.2 [("GET /users/alice", [1, 2])] "GET /users/alice"
      (.err ⟨"secondary rate limit"⟩)).1 (1, .err ⟨"secondary rate limit"⟩)
      (by simp [finishStep, pendingLookup, deliveredResult])

end GhBroker

/-! ## SHA-256 (the `sha2` crate as used by `model.rs` and `common/text.rs`),
on byte lists, all words reduced modulo `2^32`. -/

namespace Sha256

def w32 (n : ℕ) : ℕ := n % 2 ^ 32

def rotr (x n : ℕ) : ℕ := w32 ((x >>> n) ||| (x <<< (32 - n)))

def bigSigma0 (x : ℕ) : ℕ := rotr x 2 ^^^ rotr x 13 ^^^ rotr x 22
def bigSigma1 (x : ℕ) : ℕ := rotr x 6 ^^^ rotr x 11 ^^^ rotr x 25
def smallSigma0 (x : ℕ) : ℕ := rotr x 7 ^^^ rotr x 18 ^^^ (x >>> 3)
def smallSigma1 (x : ℕ) : ℕ := rotr x 17 ^^^ rotr x 19 ^^^ (x >>> 10)
def ch (x y z : ℕ) : ℕ := (x &&& y) ^^^ ((x ^^^ 4294967295) &&& z)
def maj (x y z : ℕ) : ℕ := (x &&& y) ^^^ (x &&& z) ^^^ (y &&& z)

def K : List ℕ :=
  [1116352408, 1899447441, 3049323471,
   3921009573, 961987163, 1508970993,
   2453635748, 2870763221, 3624381080,
   310598401, 607225278, 1426881987,
   1925078388, 2162078206, 2614888103,
   3248222580, 3835390401, 4022224774,
   264347078, 604807628, 770255983,
   1249150122, 1555081692, 1996064986,
   2554220882, 2821834349, 2952996808,
   3210313671, 3336571891, 3584528711,
   113926993, 338241895, 666307205,
   773529912, 1294757372, 1396182291,
   1695183700, 1986661051, 2177026350,
   2456956037, 2730485921, 2820302411,
   3259730800, 3345764771, 3516065817,
   3600352804, 4094571909, 275423344,
   430227734, 506948616, 659060556,
   883997877, 958139571, 1322822218,
   1537002063, 1747873779, 1955562222,
   2024104815, 2227730452, 2361852424,
   2428436474, 2756734187, 3204031479,
   3329325298]

structure Hash8 where
  a : ℕ
  b : ℕ
  c : ℕ
  d : ℕ
  e : ℕ
  f : ℕ
  g : ℕ
  h : ℕ
deriving DecidableEq, Repr

def H0 : Hash8 :=
  ⟨1779033703, 3144134277, 1013904242, 2773480762,
   1359893119, 2600822924, 528734635, 1541459225⟩

def schedule (ws : List ℕ) : List ℕ :=
  (List.range 48).foldl (fun acc _ =>
    let n := acc.length
    acc ++ [w32 (smallSigma1 (acc.getD (n - 2) 0) + acc.getD (n - 7) 0 +
      smallSigma0 (acc.getD (n - 15) 0) + acc.getD (n - 16) 0)]) ws

def round (st : Hash8) (ki wi : ℕ) : Hash8 :=
  let t1 := w32 (st.h + bigSigma1 st.e + ch st.e st.f st.g + ki + wi)
  let t2 := w32 (bigSigma0 st.a + maj st.a st.b st.c)
  ⟨w32 (t1 + t2), st.a, st.b, st.c, w32 (st.d + t1), st.e, st.f, st.g⟩

def compress (h0 : Hash8) (block : List ℕ) : Hash8 :=
  let ws := schedule block
  let st := (List.zip K ws).foldl (fun st kw => round st kw.1 kw.2) h0
  ⟨w32 (h0.a + st.a), w32 (h0.b + st.b), w32 (h0.c + st.c), w32 (h0.d + st.d),
   w32 (h0.e + st.e), w32 (h0.f + st.f), w32 (h0.g + st.g), w32 (h0.h + st.h)⟩

def lenBytesBE (bits : ℕ) : List ℕ :=
  [bits / 2 ^ 56 % 256, bits / 2 ^ 48 % 256, bits / 2 ^ 40 % 256, bits / 2 ^ 32 % 256,
   bits / 2 ^ 24 % 256, bits / 2 ^ 16 % 256, bits / 2 ^ 8 % 256, bits % 256]

def pad (msg : List ℕ) : List ℕ :=
  let l := msg.length
  let zeros := (64 - (l + 9) % 64) % 64
  msg ++ [128] ++ List.replicate zeros 0 ++ lenBytesBE (8 * l)

def chunk64 : ℕ → List ℕ → List (List ℕ)
  | 0, _ => []
  | _, [] => []
  | fuel + 1, l => l.take 64 :: chunk64 fuel (l.drop 64)

def bytesToWords : List ℕ → List ℕ
  | b0 :: b1 :: b2 :: b3 :: rest =>
      (((b0 * 256 + b1) * 256 + b2) * 256 + b3) :: bytesToWords rest
  | _ => []

def wordBytes (w : ℕ) : List ℕ :=
  [w / 2 ^ 24 % 256, w / 2 ^ 16 % 256, w / 2 ^ 8 % 256, w % 256]

def digestBytes (h : Hash8) : List ℕ :=
  wordBytes h.a ++ wordBytes h.b ++ wordBytes h.c ++ wordBytes h.d ++
  wordBytes h.e ++ wordBytes h.f ++ wordBytes h.g ++ wordBytes h.h

def sha256Bytes (msg : List ℕ) : List ℕ :=
  let padded := pad msg
  let blocks := chunk64 padded.length padded
  digestBytes (blocks.foldl (fun h b => compress h (bytesToWords b)) H0)

def hexDigit (n : ℕ) : Char :=
  if n < 10 then Char.ofNat (48 + n) else Char.ofNat (87 + n)

def byteHex (b : ℕ) : List Char := [hexDigit (b / 16), hexDigit (b % 16)]

def bytesToHex (bs : List ℕ) : List Char := (bs.map byteHex).flatten

set_option maxRecDepth 100000 in
/-- Sanity check of the SHA-256 embedding against the FIPS 180-2 test vector
for the message `"abc"`. -/
theorem sha256_abc_vector :
    bytesToHex (sha256Bytes [97, 98, 99]) =
      "ba7816bf8f01cfea414140de5dae2223b00361a396177a9cb410ff61f20015ad".toList := by
  decide

end Sha256


namespace GhBroker

/-! ## Request fingerprint (`model.rs`, `GithubRequest::new`) -/

/-- The request key: `"{METHOD} {PATH}{?QUERY}"`, and for non-GET methods
`" body:"` followed by the first 16 hex characters of the SHA-256 digest of the
body. -/
def requestKey (method path : List Char) (query : Option (List Char))
    (body : List ℕ) : List Char :=
  let base := method ++ [' '] ++ path ++ (match query with
    | some q => '?' :: q
    | none => [])
  if method = "GET".toList then base
  else base ++ " body:".toList ++ (Sha256.bytesToHex (Sha256.sha256Bytes body)).take 16

/-- Little-endian base-256 value of a byte list. -/
def decodeLE : List ℕ → ℕ
  | [] => 0
  | b :: rest => b + 256 * decodeLE rest

/-- The nine-byte little-endian encoding of `n` (an injective body family for
the collision argument). -/
def encode9 (n : ℕ) : List ℕ :=
  [n % 256, n / 256 % 256, n / 256 ^ 2 % 256, n / 256 ^ 3 % 256, n / 256 ^ 4 % 256,
   n / 256 ^ 5 % 256, n / 256 ^ 6 % 256, n / 256 ^ 7 % 256, n / 256 ^ 8 % 256]

theorem decodeLE_encode9 (n : ℕ) (h : n < 256 ^ 9) : decodeLE (encode9 n) = n := by
  simp only [encode9, decodeLE]
  norm_num
  omega

theorem decodeLE_lt : ∀ (bs : List ℕ), (∀ b ∈ bs, b < 256) →
    decodeLE bs < 256 ^ bs.length := by
  intro bs
  induction bs with
  | nil => intro _; norm_num [decodeLE]
  | cons b rest ih =>
      intro h
      have hb : b < 256 := h b (by simp)
      have hr := ih (fun x hx => h x (List.mem_cons_of_mem _ hx))
      simp only [decodeLE, List.length_cons, pow_succ]
      calc b + 256 * decodeLE rest < 256 + 256 * decodeLE rest := by omega
        _ ≤ 256 * (decodeLE rest + 1) := by ring_nf; omega
        _ ≤ 256 * 256 ^ rest.length := by
            have : decodeLE rest + 1 ≤ 256 ^ rest.length := hr
            exact Nat.mul_le_mul_left _ this
        _ = 256 ^ rest.length * 256 := by ring

theorem decodeLE_inj : ∀ (bs cs : List ℕ), bs.length = cs.length →
    (∀ b ∈ bs, b < 256) → (∀ b ∈ cs, b < 256) →
    decodeLE bs = decodeLE cs → bs = cs := by
  intro bs
  induction bs with
  | nil =>
      intro cs hlen _ _ _
      cases cs with
      | nil => rfl
      | cons c cr => cases hlen
  | cons b br ih =>
      intro cs hlen hb hc heq
      cases cs with
      | nil => cases hlen
      | cons c cr =>
          simp only [decodeLE] at heq
          have hb1 : b < 256 := hb b (by simp)
          have hc1 : c < 256 := hc c (by simp)
          have hbc : b = c := by omega
          have hrest : decodeLE br = decodeLE cr := by omega
          have := ih cr (by simpa using hlen)
            (fun x hx => hb x (List.mem_cons_of_mem _ hx))
            (fun x hx => hc x (List.mem_cons_of_mem _ hx)) hrest
          rw [hbc, this]

theorem wordBytes_lt (w : ℕ) : ∀ b ∈ Sha256.wordBytes w, b < 256 := by
  intro b hb
  simp only [Sha256.wordBytes, List.mem_cons, List.not_mem_nil, or_false] at hb
  rcases hb with rfl | rfl | rfl | rfl <;> exact Nat.mod_lt _ (by norm_num)

theorem sha256Bytes_lt (msg : List ℕ) : ∀ b ∈ Sha256.sha256Bytes msg, b < 256 := by
  intro b hb
  simp only [Sha256.sha256Bytes, Sha256.digestBytes, List.mem_append] at hb
  rcases hb with ((((((h | h) | h) | h) | h) | h) | h) | h <;> exact wordBytes_lt _ b h

theorem sha256Bytes_length (msg : List ℕ) : (Sha256.sha256Bytes msg).length = 32 := by
  simp [Sha256.sha256Bytes, Sha256.digestBytes, Sha256.wordBytes]

theorem bytesToHex_take : ∀ (bs : List ℕ) (k : ℕ),
    (Sha256.bytesToHex bs).take (2 * k) = Sha256.bytesToHex (bs.take k) := by
  intro bs
  induction bs with
  | nil => intro k; simp [Sha256.bytesToHex]
  | cons b rest ih =>
      intro k
      cases k with
      | zero => simp [Sha256.bytesToHex]
      | succ k' =>
          have h2 : 2 * (k' + 1) = (2 * k') + 1 + 1 := by ring
          simp only [Sha256.bytesToHex, List.map_cons, List.flatten_cons, Sha256.byteHex,
            List.take_succ_cons, List.cons_append, List.nil_append, h2]
          have ih' := ih k'
          simp only [Sha256.bytesToHex] at ih'
          rw [ih']

/-- **C7, counterexample.** The negation of "distinct bodies give distinct
keys": the key appends only the first 16 hex characters (64 bits) of the
SHA-256 digest, so by pigeonhole over `2^64 + 1` distinct nine-byte bodies two
distinct bodies share a key for `POST /graphql`. -/
theorem request_key_collision_exists :
    ∃ b1 b2 : List ℕ, b1 ≠ b2 ∧
      requestKey "POST".toList "/graphql".toList none b1 =
        requestKey "POST".toList "/graphql".toList none b2 := by
  have hcard : (Finset.range (2 ^ 64)).card < (Finset.range (2 ^ 64 + 1)).card := by
    simp
  have hmaps : ∀ n ∈ Finset.range (2 ^ 64 + 1),
      decodeLE ((Sha256.sha256Bytes (encode9 n)).take 8) ∈ Finset.range (2 ^ 64) := by
    intro n _
    rw [Finset.mem_range]
    have hby : ∀ b ∈ (Sha256.sha256Bytes (encode9 n)).take 8, b < 256 :=
      fun b hb => sha256Bytes_lt _ b (List.mem_of_mem_take hb)
    have hlt := decodeLE_lt _ hby
    have hlen : ((Sha256.sha256Bytes (encode9 n)).take 8).length ≤ 8 := by
      simp [List.length_take]
    calc decodeLE ((Sha256.sha256Bytes (encode9 n)).take 8)
        < 256 ^ ((Sha256.sha256Bytes (encode9 n)).take 8).length := hlt
      _ ≤ 256 ^ 8 := Nat.pow_le_pow_right (by norm_num) hlen
      _ = 2 ^ 64 := by norm_num
  obtain ⟨n1, hn1, n2, hn2, hne, heq⟩ :=
    Finset.exists_ne_map_eq_of_card_lt_of_maps_to hcard hmaps
  rw [Finset.mem_range] at hn1 hn2
  have hb1 : n1 < 256 ^ 9 := lt_of_lt_of_le hn1 (by norm_num)
  have hb2 : n2 < 256 ^ 9 := lt_of_lt_of_le hn2 (by norm_num)
  have htake : (Sha256.sha256Bytes (encode9 n1)).take 8 =
      (Sha256.sha256Bytes (encode9 n2)).take 8 := by
    apply decodeLE_inj _ _ ?_ ?_ ?_ heq
    · simp [List.length_take, sha256Bytes_length]
    · exact fun b hb => sha256Bytes_lt _ b (List.mem_of_mem_take hb)
    · exact fun b hb => sha256Bytes_lt _ b (List.mem_of_mem_take hb)
  refine ⟨encode9 n1, encode9 n2, ?_, ?_⟩
  · intro h
    apply hne
    have := congrArg decodeLE h
    rwa [decodeLE_encode9 n1 hb1, decodeLE_encode9 n2 hb2] at this
  · unfold requestKey
    rw [if_neg (by decide), if_neg (by decide)]
    have h16 : (Sha256.bytesToHex (Sha256.sha256Bytes (encode9 n1))).take 16 =
        (Sha256.bytesToHex (Sha256.sha256Bytes (encode9 n2))).take 16 := by
      have e16 : (16 : ℕ) = 2 * 8 := by norm_num
      rw [e16, bytesToHex_take, bytesToHex_take, htake]
    rw [h16]

/-- **C7, amended.** The key is `"{METHOD} {PATH}"` with `"?QUERY"` appended
when a query is present, plus — for methods other than GET — `" body:"` and the
first 16 hex characters of SHA-256(body). Hence GET keys ignore the body
entirely, and two non-GET requests agreeing on method, path and query have
equal keys *iff* their bodies' truncated 16-character digests agree: distinct
bodies give distinct keys only up to collisions of the 64-bit digest prefix
(which exist, by `request_key_collision_exists`). -/
theorem request_key_amended :
    (∀ (m p : List Char) (q : Option (List Char)) (b : List ℕ),
      requestKey m p q b =
        (m ++ [' '] ++ p ++ (match q with | some qs => '?' :: qs | none => [])) ++
        (if m = "GET".toList then []
         else " body:".toList ++ (Sha256.bytesToHex (Sha256.sha256Bytes b)).take 16)) ∧
    (∀ (p : List Char) (q : Option (List Char)) (b b' : List ℕ),
      requestKey "GET".toList p q b = requestKey "GET".toList p q b') ∧
    (∀ (m p : List Char) (q : Option (List Char)) (b b' : List ℕ),
      m ≠ "GET".toList →
      (requestKey m p q b = requestKey m p q b' ↔
        (Sha256.bytesToHex (Sha256.sha256Bytes b)).take 16 =
          (Sha256.bytesToHex (Sha256.sha256Bytes b')).take 16)) := by
  refine ⟨?_, ?_, ?_⟩
  · intro m p q b
    unfold requestKey
    by_cases h : m = "GET".toList
    · rw [if_pos h, if_pos h, List.append_nil]
    · rw [if_neg h, if_neg h, List.append_assoc]
  · intro p q b b'
    unfold requestKey
    rw [if_pos rfl, if_pos rfl]
  · intro m p q b b' hm
    unfold requestKey
    rw [if_neg hm, if_neg hm]
    constructor
    · intro h
      exact List.append_cancel_left h
    · intro h
      rw [h]

set_option maxRecDepth 100000 in
/-- Witness for `request_key_amended` at concrete inputs: a GET ignores the
body, and two `POST /graphql` requests with bodies `[0]` and `[1]` get distinct
keys because their digest prefixes differ. -/
theorem request_key_amended_witness :
    requestKey "GET".toList "/users/alice".toList none [0] =
      requestKey "GET".toList "/users/alice".toList none [1] ∧
    requestKey "POST".toList "/graphql".toList none [0] ≠
      requestKey "POST".toList "/graphql".toList none [1] := by
  constructor
  · exact request_key_amended.2.1 "/users/alice".toList none [0] [1]
  · intro h
    have := (request_key_amended.2.2 "POST".toList "/graphql".toList none [0] [1]
      (by decide)).mp h
    have hne : (Sha256.bytesToHex (Sha256.sha256Bytes [0])).take 16 ≠
        (Sha256.bytesToHex (Sha256.sha256Bytes [1])).take 16 := by decide
    exact hne this

end GhBroker

/-! ## Text normalization and dedupe hashing (`crates/common/src/text.rs`).

Strings are modelled as `List Char`; `char::is_whitespace` as the Unicode
`White_Space` code-point list; `str::to_lowercase` by its ASCII case mapping
(`'A'..='Z'` + 32), which is exact on the ASCII inputs considered here. -/

namespace CommonText

def isRustWhitespace (c : Char) : Bool :=
  decide (c.toNat ∈ ([9, 10, 11, 12, 13, 32, 133, 160, 5760, 8192, 8193, 8194,
    8195, 8196, 8197, 8198, 8199, 8200, 8201, 8202, 8232, 8233, 8239, 8287,
    12288] : List ℕ))

def toLowerChar (c : Char) : Char :=
  if 65 ≤ c.toNat ∧ c.toNat ≤ 90 then Char.ofNat (c.toNat + 32) else c

def trimChars (s : List Char) : List Char :=
  ((s.dropWhile isRustWhitespace).reverse.dropWhile isRustWhitespace).reverse

def collapseOut (k : ℕ) : Option Char → ℕ → List Char → List Char
  | _, _, [] => []
  | prev, count, c :: rest =>
      if prev = some c then
        if count + 1 ≤ k then c :: collapseOut k (some c) (count + 1) rest
        else collapseOut k (some c) (count + 1) rest
      else c :: collapseOut k (some c) 1 rest

def collapse_repeats (input : List Char) (maxRepeat : ℕ) : List Char :=
  if maxRepeat = 0 ∨ input = [] then [] else collapseOut maxRepeat none 0 input

def collapseSt : Option Char → ℕ → List Char → Option Char × ℕ
  | prev, count, [] => (prev, count)
  | _prev, count, c :: rest =>
      if _prev = some c then collapseSt (some c) (count + 1) rest
      else collapseSt (some c) 1 rest

def wordsAux : List Char → List Char → List (List Char)
  | [], acc => if acc = [] then [] else [acc.reverse]
  | c :: rest, acc =>
      if isRustWhitespace c then
        if acc = [] then wordsAux rest [] else acc.reverse :: wordsAux rest []
      else wordsAux rest (c :: acc)

def words (s : List Char) : List (List Char) := wordsAux s []

def normalize_body (input : List Char) : List Char :=
  let trimmed := trimChars input
  let lowered := trimmed.map toLowerChar
  let collapsed := collapse_repeats lowered 3
  List.intercalate [' '] (words collapsed)

def utf8Char (c : Char) : List ℕ :=
  let n := c.toNat
  if n < 128 then [n]
  else if n < 2048 then [192 + n / 64, 128 + n % 64]
  else if n < 65536 then [224 + n / 4096, 128 + n / 64 % 64, 128 + n % 64]
  else [240 + n / 262144, 128 + n / 4096 % 64, 128 + n / 64 % 64, 128 + n % 64]

def utf8Bytes (s : List Char) : List ℕ := (s.map utf8Char).flatten


/-- `dedupe_hash`: SHA-256 hex of the normalized title, a newline, and the
normalized body. The title is trimmed, lowercased and run-collapsed, but — in
contrast to the body — *not* whitespace-normalized. -/
def dedupe_hash (title body : List Char) : List Char :=
  let normalizedTitle := collapse_repeats ((trimChars title).map toLowerChar) 3
  let normalizedBody := normalize_body body
  Sha256.bytesToHex (Sha256.sha256Bytes
    (utf8Bytes normalizedTitle ++ [10] ++ utf8Bytes normalizedBody))

set_option maxRecDepth 1000000 in
/-- **C8, counterexample.** Titles `"a b"` and `"a  b"` differ only in
whitespace, yet their dedupe hashes differ: the title is only trimmed,
lowercased and run-collapsed — its internal whitespace is hashed as-is. -/
theorem dedupe_hash_whitespace_counterexample :
    dedupe_hash "a b".toList "x".toList ≠ dedupe_hash "a  b".toList "x".toList := by
  decide

end CommonText

namespace CommonText

theorem toLowerChar_toNat_of_upper (c : Char) (h : 65 ≤ c.toNat ∧ c.toNat ≤ 90) :
    (toLowerChar c).toNat = c.toNat + 32 := by
  have hv : (c.toNat + 32).isValidChar := Or.inl (by omega)
  unfold toLowerChar
  rw [if_pos h]
  show (Char.ofNat (c.toNat + 32)).toNat = _
  unfold Char.ofNat
  rw [dif_pos hv]
  rfl

theorem isRustWhitespace_toLower (c : Char) :
    isRustWhitespace (toLowerChar c) = isRustWhitespace c := by
  by_cases h : 65 ≤ c.toNat ∧ c.toNat ≤ 90
  · have ht := toLowerChar_toNat_of_upper c h
    have h1 : isRustWhitespace (toLowerChar c) = false := by
      unfold isRustWhitespace
      apply decide_eq_false
      intro hmem
      rw [ht] at hmem
      simp only [List.mem_cons, List.not_mem_nil, or_false] at hmem
      omega
    have h2 : isRustWhitespace c = false := by
      unfold isRustWhitespace
      apply decide_eq_false
      intro hmem
      simp only [List.mem_cons, List.not_mem_nil, or_false] at hmem
      omega
    rw [h1, h2]
  · unfold toLowerChar
    rw [if_neg h]

theorem dropWhile_map_toLower (s : List Char) :
    List.dropWhile isRustWhitespace (s.map toLowerChar) =
      (List.dropWhile isRustWhitespace s).map toLowerChar := by
  induction s with
  | nil => rfl
  | cons c rest ih =>
      simp only [List.map_cons, List.dropWhile_cons, isRustWhitespace_toLower c]
      by_cases h : isRustWhitespace c = true
      · simp [h, ih]
      · simp [h]

theorem trim_map_toLower (s : List Char) :
    trimChars (s.map toLowerChar) = (trimChars s).map toLowerChar := by
  unfold trimChars
  rw [dropWhile_map_toLower, ← List.map_reverse, dropWhile_map_toLower, ← List.map_reverse]

theorem wordsAux_nil_eq (acc : List Char) :
    wordsAux [] acc = if acc = [] then [] else [acc.reverse] := rfl

theorem wordsAux_cons_eq (c : Char) (rest acc : List Char) :
    wordsAux (c :: rest) acc =
      if isRustWhitespace c = true then
        (if acc = [] then wordsAux rest [] else acc.reverse :: wordsAux rest [])
      else wordsAux rest (c :: acc) := rfl

theorem wordsAux_map_toLower :
    ∀ (s acc : List Char),
      wordsAux (s.map toLowerChar) (acc.map toLowerChar) =
        (wordsAux s acc).map (List.map toLowerChar) := by
  intro s
  induction s with
  | nil =>
      intro acc
      rw [List.map_nil, wordsAux_nil_eq, wordsAux_nil_eq]
      by_cases h : acc = []
      · subst h; rfl
      · rw [if_neg (by simpa using h), if_neg h]
        simp [List.map_reverse]
  | cons c rest ih =>
      intro acc
      rw [List.map_cons, wordsAux_cons_eq, wordsAux_cons_eq, isRustWhitespace_toLower c]
      by_cases h : isRustWhitespace c = true
      · rw [if_pos h, if_pos h]
        have h0 := ih []
        simp only [List.map_nil] at h0
        by_cases ha : acc = []
        · subst ha
          simp only [List.map_nil, if_pos rfl]
          exact h0
        · rw [if_neg (by simpa using ha), if_neg ha, List.map_cons, List.map_reverse, h0]
      · rw [if_neg h, if_neg h]
        have := ih (c :: acc)
        simpa using this

theorem words_map_toLower (s : List Char) :
    words (s.map toLowerChar) = (words s).map (List.map toLowerChar) := by
  have := wordsAux_map_toLower s []
  simpa [words] using this

theorem wordsAux_ws_nil :
    ∀ (r : List Char), (∀ c ∈ r, isRustWhitespace c = true) → wordsAux r [] = [] := by
  intro r
  induction r with
  | nil => intro _; rfl
  | cons c rest ih =>
      intro h
      rw [wordsAux_cons_eq, if_pos (h c (by simp)), if_pos rfl]
      exact ih (fun x hx => h x (List.mem_cons_of_mem _ hx))

theorem words_ws_append (r s : List Char) (h : ∀ c ∈ r, isRustWhitespace c = true) :
    words (r ++ s) = words s := by
  induction r with
  | nil => rfl
  | cons c rest ih =>
      show wordsAux ((c :: rest) ++ s) [] = _
      rw [List.cons_append, wordsAux_cons_eq, if_pos (h c (by simp)), if_pos rfl]
      exact ih (fun x hx => h x (List.mem_cons_of_mem _ hx))

theorem wordsAux_append_ws (r : List Char) (hr : ∀ c ∈ r, isRustWhitespace c = true) :
    ∀ (s acc : List Char), wordsAux (s ++ r) acc = wordsAux s acc := by
  intro s
  induction s with
  | nil =>
      intro acc
      rw [List.nil_append]
      rcases r with _ | ⟨d, r'⟩
      · rfl
      · rw [wordsAux_cons_eq, if_pos (hr d (by simp)), wordsAux_nil_eq]
        by_cases h : acc = []
        · rw [if_pos h, if_pos h]
          exact wordsAux_ws_nil r' (fun x hx => hr x (List.mem_cons_of_mem _ hx))
        · rw [if_neg h, if_neg h,
            wordsAux_ws_nil r' (fun x hx => hr x (List.mem_cons_of_mem _ hx))]
  | cons c s' ih =>
      intro acc
      rw [List.cons_append, wordsAux_cons_eq, wordsAux_cons_eq]
      by_cases h : isRustWhitespace c = true
      · rw [if_pos h, if_pos h]
        by_cases ha : acc = []
        · rw [if_pos ha, if_pos ha, ih]
        · rw [if_neg ha, if_neg ha, ih]
      · rw [if_neg h, if_neg h, ih]

theorem words_append_ws (s r : List Char) (h : ∀ c ∈ r, isRustWhitespace c = true) :
    words (s ++ r) = words s :=
  wordsAux_append_ws r h s []

theorem dropWhile_ws_append (r y : List Char) (h : ∀ c ∈ r, isRustWhitespace c = true) :
    List.dropWhile isRustWhitespace (r ++ y) = List.dropWhile isRustWhitespace y := by
  induction r with
  | nil => rfl
  | cons c rest ih =>
      rw [List.cons_append, List.dropWhile_cons_of_pos (h c (by simp))]
      exact ih (fun x hx => h x (List.mem_cons_of_mem _ hx))

theorem dropWhile_ws_all (r : List Char) (h : ∀ c ∈ r, isRustWhitespace c = true) :
    List.dropWhile isRustWhitespace r = [] := by
  have := dropWhile_ws_append r [] h
  simpa using this

theorem trim_ws_left (r y : List Char) (h : ∀ c ∈ r, isRustWhitespace c = true) :
    trimChars (r ++ y) = trimChars y := by
  unfold trimChars
  rw [dropWhile_ws_append r y h]

theorem trim_ws_right (y r : List Char) (h : ∀ c ∈ r, isRustWhitespace c = true) :
    trimChars (y ++ r) = trimChars y := by
  induction y with
  | nil =>
      show trimChars (r) = trimChars []
      unfold trimChars
      rw [dropWhile_ws_all r h]
      rfl
  | cons c y' ih =>
      by_cases hc : isRustWhitespace c = true
      · unfold trimChars
        rw [List.cons_append, List.dropWhile_cons_of_pos hc, List.dropWhile_cons_of_pos hc]
        unfold trimChars at ih
        exact ih
      · unfold trimChars
        rw [List.cons_append, List.dropWhile_cons_of_neg hc, List.dropWhile_cons_of_neg hc]
        have hrev : (c :: (y' ++ r)).reverse = r.reverse ++ (y'.reverse ++ [c]) := by
          rw [List.reverse_cons, List.reverse_append, List.append_assoc]
        rw [hrev, dropWhile_ws_append r.reverse _
          (by intro x hx; rw [List.mem_reverse] at hx; exact h x hx)]
        rw [List.reverse_cons]

theorem words_trim (s : List Char) : words (trimChars s) = words s := by
  have hlead : words s = words (List.dropWhile isRustWhitespace s) := by
    conv_lhs => rw [← List.takeWhile_append_dropWhile (p := isRustWhitespace) (l := s)]
    exact words_ws_append _ _ (fun c hc => List.mem_takeWhile_imp hc)
  set t := List.dropWhile isRustWhitespace s with ht
  have hsplit : t = trimChars s ++ (List.takeWhile isRustWhitespace t.reverse).reverse := by
    conv_lhs => rw [← List.reverse_reverse t,
      ← List.takeWhile_append_dropWhile (p := isRustWhitespace) (l := t.reverse)]
    rw [List.reverse_append]
    rfl
  rw [hlead, hsplit, words_append_ws _ _ ?_]
  intro c hc
  rw [List.mem_reverse] at hc
  exact List.mem_takeWhile_imp hc

theorem collapseOut_cons_eq (k : ℕ) (pv : Option Char) (ct : ℕ) (c : Char)
    (rest : List Char) :
    collapseOut k pv ct (c :: rest) =
      if pv = some c then
        (if ct + 1 ≤ k then c :: collapseOut k (some c) (ct + 1) rest
         else collapseOut k (some c) (ct + 1) rest)
      else c :: collapseOut k (some c) 1 rest := rfl

theorem collapseSt_cons_eq (pv : Option Char) (ct : ℕ) (c : Char) (rest : List Char) :
    collapseSt pv ct (c :: rest) =
      if pv = some c then collapseSt (some c) (ct + 1) rest
      else collapseSt (some c) 1 rest := rfl

theorem collapseOut_append (k : ℕ) :
    ∀ (x y : List Char) (pv : Option Char) (ct : ℕ),
      collapseOut k pv ct (x ++ y) =
        collapseOut k pv ct x ++
          collapseOut k (collapseSt pv ct x).1 (collapseSt pv ct x).2 y := by
  intro x
  induction x with
  | nil => intro y pv ct; rfl
  | cons c x' ih =>
      intro y pv ct
      rw [List.cons_append, collapseOut_cons_eq, collapseOut_cons_eq, collapseSt_cons_eq]
      by_cases h : pv = some c
      · rw [if_pos h, if_pos h, if_pos h]
        by_cases h2 : ct + 1 ≤ k
        · rw [if_pos h2, if_pos h2, List.cons_append, ih]
        · rw [if_neg h2, if_neg h2, ih]
      · rw [if_neg h, if_neg h, if_neg h, List.cons_append, ih]

theorem collapseOut_subset (k : ℕ) :
    ∀ (x : List Char) (pv : Option Char) (ct : ℕ), ∀ b ∈ collapseOut k pv ct x, b ∈ x := by
  intro x
  induction x with
  | nil => intro pv ct b hb; exact absurd hb (by simp [collapseOut])
  | cons c x' ih =>
      intro pv ct b hb
      rw [collapseOut_cons_eq] at hb
      by_cases h : pv = some c
      · rw [if_pos h] at hb
        by_cases h2 : ct + 1 ≤ k
        · rw [if_pos h2] at hb
          rcases List.mem_cons.mp hb with rfl | hb'
          · exact List.mem_cons_self _ _
          · exact List.mem_cons_of_mem _ (ih _ _ b hb')
        · rw [if_neg h2] at hb
          exact List.mem_cons_of_mem _ (ih _ _ b hb)
      · rw [if_neg h] at hb
        rcases List.mem_cons.mp hb with rfl | hb'
        · exact List.mem_cons_self _ _
        · exact List.mem_cons_of_mem _ (ih _ _ b hb')

theorem collapseOut_restart (k : ℕ) (pv : Option Char) (ct : ℕ) (c : Char)
    (rest : List Char) (h : pv ≠ some c) :
    collapseOut k pv ct (c :: rest) = collapseOut k none 0 (c :: rest) := by
  rw [collapseOut_cons_eq, collapseOut_cons_eq, if_neg h, if_neg (by simp)]

theorem collapseOut_stEq (k : ℕ) :
    ∀ (l : List Char) (p1 : Option Char) (n1 : ℕ) (p2 : Option Char) (n2 : ℕ),
      p1 = p2 → (n1 = n2 ∨ (k ≤ n1 ∧ k ≤ n2)) →
      collapseOut k p1 n1 l = collapseOut k p2 n2 l := by
  intro l
  induction l with
  | nil => intro p1 n1 p2 n2 _ _; rfl
  | cons c rest ih =>
      intro p1 n1 p2 n2 hp hn
      subst hp
      rcases hn with rfl | ⟨ha, hb⟩
      · rfl
      · rw [collapseOut_cons_eq, collapseOut_cons_eq]
        by_cases h : p1 = some c
        · rw [if_pos h, if_pos h, if_neg (by omega), if_neg (by omega)]
          exact ih _ _ _ _ rfl (Or.inr ⟨by omega, by omega⟩)
        · rw [if_neg h, if_neg h]

theorem collapseSt_rep_same (c : Char) :
    ∀ (m ct : ℕ), collapseSt (some c) ct (List.replicate m c) = (some c, ct + m) := by
  intro m
  induction m with
  | zero => intro ct; simp [collapseSt]
  | succ m ih =>
      intro ct
      rw [List.replicate_succ, collapseSt_cons_eq, if_pos rfl, ih (ct + 1)]
      congr 1
      omega

theorem collapseSt_rep (c : Char) (pv : Option Char) (ct : ℕ) (m : ℕ) (hm : 1 ≤ m) :
    ∃ n, collapseSt pv ct (List.replicate m c) = (some c, n) ∧ m ≤ n := by
  rcases m with _ | m'
  · omega
  · rw [List.replicate_succ, collapseSt_cons_eq]
    by_cases h : pv = some c
    · rw [if_pos h, collapseSt_rep_same c m' (ct + 1)]
      exact ⟨ct + 1 + m', rfl, by omega⟩
    · rw [if_neg h, collapseSt_rep_same c m' 1]
      exact ⟨1 + m', rfl, by omega⟩

theorem collapseOut_rep_ge (k : ℕ) (hk : 1 ≤ k) (c : Char) (q : List Char) :
    ∀ (m : ℕ), k ≤ m → ∀ (pv : Option Char) (ct : ℕ),
      collapseOut k pv ct (List.replicate m c ++ q) =
        collapseOut k pv ct (List.replicate k c ++ q) := by
  intro m
  induction m with
  | zero => intro h; omega
  | succ m ih =>
      intro hm pv ct
      by_cases hmk : k = m + 1
      · rw [hmk]
      · have hm' : k ≤ m := by omega
        have hstep : List.replicate (m + 1) c ++ q = List.replicate m c ++ (c :: q) := by
          rw [List.replicate_succ', List.append_assoc]
          rfl
        rw [hstep, collapseOut_append]
        obtain ⟨n, hst, hn⟩ := collapseSt_rep c pv ct m (by omega)
        rw [hst]
        have hcq : collapseOut k (some c, n).1 (some c, n).2 (c :: q) =
            collapseOut k (some c) n q := by
          show collapseOut k (some c) n (c :: q) = _
          rw [collapseOut_cons_eq, if_pos rfl, if_neg (by omega)]
          exact collapseOut_stEq k q _ _ _ _ rfl (Or.inr ⟨by omega, by omega⟩)
        rw [hcq]
        have happ := collapseOut_append k (List.replicate m c) q pv ct
        simp only [hst] at happ
        rw [← happ]
        exact ih hm' pv ct

theorem dropWhile_head_false {p : Char → Bool} :
    ∀ (l : List Char) (c : Char) (t : List Char),
      List.dropWhile p l = c :: t → p c = false := by
  intro l
  induction l with
  | nil => intro c t h; cases h
  | cons a l' ih =>
      intro c t h
      by_cases ha : p a = true
      · rw [List.dropWhile_cons_of_pos ha] at h
        exact ih c t h
      · rw [List.dropWhile_cons_of_neg ha] at h
        cases h
        simpa using ha

theorem collapseSt_mem :
    ∀ (r : List Char) (pv : Option Char) (ct : ℕ), r ≠ [] →
      ∃ e n, collapseSt pv ct r = (some e, n) ∧ e ∈ r := by
  intro r
  induction r with
  | nil => intro pv ct h; exact absurd rfl h
  | cons c r' ih =>
      intro pv ct _
      rcases hr' : r' with _ | ⟨d, r''⟩
      · refine ⟨c, ?_, ?_, by simp⟩
        · exact if pv = some c then ct + 1 else 1
        · rw [collapseSt_cons_eq]
          by_cases h : pv = some c
          · rw [if_pos h, if_pos h]
            rfl
          · rw [if_neg h, if_neg h]
            rfl
      · rw [collapseSt_cons_eq]
        by_cases h : pv = some c
        · obtain ⟨e, n, hst, hmem⟩ := ih (some c) (ct + 1) (by rw [hr']; simp)
          rw [hr'] at hst hmem
          exact ⟨e, n, by rw [if_pos h]; exact hst,
            List.mem_cons_of_mem _ hmem⟩
        · obtain ⟨e, n, hst, hmem⟩ := ih (some c) 1 (by rw [hr']; simp)
          rw [hr'] at hst hmem
          exact ⟨e, n, by rw [if_neg h]; exact hst,
            List.mem_cons_of_mem _ hmem⟩

theorem wordsAux_nonws_append :
    ∀ (x : List Char), (∀ c ∈ x, isRustWhitespace c = false) →
      ∀ (y acc : List Char), wordsAux (x ++ y) acc = wordsAux y (x.reverse ++ acc) := by
  intro x
  induction x with
  | nil => intro _ y acc; rw [List.nil_append, List.reverse_nil, List.nil_append]
  | cons c x' ih =>
      intro h y acc
      rw [List.cons_append, wordsAux_cons_eq, if_neg (by simp [h c (by simp)])]
      rw [ih (fun z hz => h z (List.mem_cons_of_mem _ hz)) y (c :: acc)]
      rw [List.reverse_cons, List.append_assoc]
      rfl

theorem words_word_append (x y : List Char) (hx : x ≠ [])
    (hnw : ∀ c ∈ x, isRustWhitespace c = false)
    (hy : y = [] ∨ ∃ d t, y = d :: t ∧ isRustWhitespace d = true) :
    words (x ++ y) = x :: words y := by
  show wordsAux (x ++ y) [] = _
  rw [wordsAux_nonws_append x hnw y [], List.append_nil]
  rcases hy with rfl | ⟨d, t, rfl, hd⟩
  · rw [wordsAux_nil_eq, if_neg (by simpa using hx), List.reverse_reverse]
    rfl
  · rw [wordsAux_cons_eq, if_pos hd, if_neg (by simpa using hx), List.reverse_reverse]
    show _ = x :: wordsAux (d :: t) []
    rw [wordsAux_cons_eq, if_pos hd, if_pos rfl]

theorem words_collapse (k : ℕ) :
    ∀ (N : ℕ) (s : List Char), s.length ≤ N →
      words (collapseOut k none 0 s) =
        (words s).map (fun w => collapseOut k none 0 w) := by
  intro N
  induction N with
  | zero =>
      intro s hs
      have : s = [] := List.eq_nil_of_length_eq_zero (by omega)
      subst this
      rfl
  | succ N ih =>
      intro s hs
      rcases hsc : s with _ | ⟨c, s'⟩
      · rfl
      · by_cases hc : isRustWhitespace c = true
        · -- leading whitespace run
          have hsplit : c :: s' = List.takeWhile isRustWhitespace (c :: s') ++
              List.dropWhile isRustWhitespace (c :: s') :=
            (List.takeWhile_append_dropWhile (p := isRustWhitespace) (l := c :: s')).symm
          set r := List.takeWhile isRustWhitespace (c :: s') with hr
          set t := List.dropWhile isRustWhitespace (c :: s') with ht
          have hrws : ∀ x ∈ r, isRustWhitespace x = true :=
            fun x hx => List.mem_takeWhile_imp hx
          have hrne : r ≠ [] := by
            rw [hr, List.takeWhile_cons_of_pos hc]
            simp
          have hlen : r.length + t.length = s'.length + 1 := by
            have := congrArg List.length hsplit
            simp only [List.length_cons, List.length_append] at this
            omega
          have htlen : t.length ≤ N := by
            have h1 : 1 ≤ r.length := by
              rcases r with _ | _
              · exact absurd rfl hrne
              · simp
            simp only [hsc, List.length_cons] at hs
            omega
          have hout_ws : ∀ x ∈ collapseOut k none 0 r, isRustWhitespace x = true :=
            fun x hx => hrws x (collapseOut_subset k r none 0 x hx)
          rw [hsplit, collapseOut_append, words_ws_append r t hrws]
          rcases htt : t with _ | ⟨d, t'⟩
          · show words (collapseOut k none 0 r ++ []) =
              (words ([] : List Char)).map (fun w => collapseOut k none 0 w)
            rw [List.append_nil]
            show wordsAux (collapseOut k none 0 r) [] = _
            rw [wordsAux_ws_nil _ hout_ws]
            rfl
          · have hd : isRustWhitespace d = false := dropWhile_head_false (c :: s') d t' htt
            obtain ⟨e, n, hst, hemem⟩ := collapseSt_mem r none 0 hrne
            have hews : isRustWhitespace e = true := hrws e hemem
            have hed : (some e : Option Char) ≠ some d := by
              intro hcontr
              cases hcontr
              rw [hews] at hd
              cases hd
            simp only [hst]
            rw [collapseOut_restart k (some e) n d t' hed,
              words_ws_append _ _ hout_ws, ← htt]
            exact ih t htlen
        · -- leading word
          have hcb : isRustWhitespace c = false := by
            rcases hcc : isRustWhitespace c with _ | _
            · rfl
            · exact absurd hcc hc
          have hsplit : c :: s' = List.takeWhile (fun x => !isRustWhitespace x) (c :: s') ++
              List.dropWhile (fun x => !isRustWhitespace x) (c :: s') :=
            (List.takeWhile_append_dropWhile (p := fun x => !isRustWhitespace x)
              (l := c :: s')).symm
          set w := List.takeWhile (fun x => !isRustWhitespace x) (c :: s') with hw
          set t := List.dropWhile (fun x => !isRustWhitespace x) (c :: s') with ht
          have hwnws : ∀ x ∈ w, isRustWhitespace x = false := by
            intro x hx
            have := List.mem_takeWhile_imp hx
            simpa using this
          have hwne : w ≠ [] := by
            rw [hw, List.takeWhile_cons_of_pos (by simp [hcb])]
            simp
          have hlen : w.length + t.length = s'.length + 1 := by
            have := congrArg List.length hsplit
            simp only [List.length_cons, List.length_append] at this
            omega
          have htlen : t.length ≤ N := by
            have h1 : 1 ≤ w.length := by
              rcases w with _ | _
              · exact absurd rfl hwne
              · simp
            simp only [hsc, List.length_cons] at hs
            omega
          have hout_nws : ∀ x ∈ collapseOut k none 0 w, isRustWhitespace x = false :=
            fun x hx => hwnws x (collapseOut_subset k w none 0 x hx)
          have hout_ne : collapseOut k none 0 w ≠ [] := by
            rcases hww : w with _ | ⟨c0, w'⟩
            · exact absurd hww hwne
            · rw [collapseOut_cons_eq, if_neg (by simp)]
              simp
          rw [hsplit, collapseOut_append]
          obtain ⟨e, n, hst, hemem⟩ := collapseSt_mem w none 0 hwne
          have henws : isRustWhitespace e = false := hwnws e hemem
          rcases htt : t with _ | ⟨d, t'⟩
          · show words (collapseOut k none 0 w ++ []) =
              (words (w ++ [])).map (fun w => collapseOut k none 0 w)
            rw [List.append_nil, List.append_nil]
            have hw1 := words_word_append w [] hwne hwnws (Or.inl rfl)
            rw [List.append_nil] at hw1
            have how1 := words_word_append (collapseOut k none 0 w) []
              hout_ne hout_nws (Or.inl rfl)
            rw [List.append_nil] at how1
            rw [hw1, how1]
            rfl
          · have hd : isRustWhitespace d = true := by
              have := dropWhile_head_false (p := fun x => !isRustWhitespace x)
                (c :: s') d t' htt
              simpa using this
            have hed : (some e : Option Char) ≠ some d := by
              intro hcontr
              cases hcontr
              rw [hd] at henws
              cases henws
            simp only [hst]
            rw [collapseOut_restart k (some e) n d t' hed]
            have hrest : collapseOut k none 0 (d :: t') =
                d :: collapseOut k (some d) 1 t' := by
              rw [collapseOut_cons_eq, if_neg (by simp)]
            rw [hrest, words_word_append _ _ hout_ne hout_nws
              (Or.inr ⟨d, collapseOut k (some d) 1 t', rfl, hd⟩), ← hrest,
              words_word_append w (d :: t') hwne hwnws (Or.inr ⟨d, t', rfl, hd⟩)]
            rw [List.map_cons]
            rw [ih (d :: t') (by rw [← htt]; exact htlen)]

theorem collapse_repeats_eq3 (s : List Char) :
    collapse_repeats s 3 = collapseOut 3 none 0 s := by
  rcases s with _ | ⟨c, s'⟩
  · rfl
  · unfold collapse_repeats
    rw [if_neg (by simp)]

theorem normalize_body_eq_words (b : List Char) :
    normalize_body b = List.intercalate [' ']
      ((words b).map (fun w => collapseOut 3 none 0 (w.map toLowerChar))) := by
  unfold normalize_body
  show [' '].intercalate
    (words (collapse_repeats ((trimChars b).map toLowerChar) 3)) = _
  rw [collapse_repeats_eq3,
    words_collapse 3 ((trimChars b).map toLowerChar).length _ (le_refl _),
    ← trim_map_toLower, words_trim, words_map_toLower, List.map_map]
  rfl

theorem dedupe_hash_congr (t1 t2 b1 b2 : List Char)
    (ht : collapse_repeats ((trimChars t1).map toLowerChar) 3 =
      collapse_repeats ((trimChars t2).map toLowerChar) 3)
    (hb : normalize_body b1 = normalize_body b2) :
    dedupe_hash t1 b1 = dedupe_hash t2 b2 := by
  unfold dedupe_hash
  rw [ht, hb]

theorem collapse_title_run (p q : List Char) (c : Char) (m : ℕ) (hm : 3 ≤ m)
    (htr : trimChars (p ++ List.replicate m c ++ q) = p ++ List.replicate m c ++ q) :
    collapse_repeats ((trimChars (p ++ List.replicate m c ++ q)).map toLowerChar) 3 =
      collapseOut 3 none 0 (p.map toLowerChar ++
        (List.replicate 3 (toLowerChar c) ++ q.map toLowerChar)) := by
  rw [htr, collapse_repeats_eq3, List.map_append, List.map_append, List.map_replicate,
    List.append_assoc,
    collapseOut_append 3 (p.map toLowerChar)
      (List.replicate m (toLowerChar c) ++ q.map toLowerChar) none 0,
    collapseOut_rep_ge 3 (by norm_num) (toLowerChar c) (q.map toLowerChar) m hm,
    ← collapseOut_append]

/-- **C8, amended.** `dedupe_hash` is invariant under: letter-case differences
in either field; leading/trailing whitespace on the title; whitespace
differences in the body that preserve the whitespace-delimited word sequence;
and changes to the length of a run of one repeated character as long as both
lengths are at least 3 (so in particular all runs longer than 3 collapse to the
same value) and the run is not trimmed away at the edges. What the original
claim adds — invariance under *internal* whitespace differences in the title —
is false: see the counterexample. -/
theorem dedupe_hash_amended :
    (∀ (t1 t2 b1 b2 : List Char),
      t1.map toLowerChar = t2.map toLowerChar →
      b1.map toLowerChar = b2.map toLowerChar →
      dedupe_hash t1 b1 = dedupe_hash t2 b2) ∧
    (∀ (t b r r' : List Char),
      (∀ c ∈ r, isRustWhitespace c = true) →
      (∀ c ∈ r', isRustWhitespace c = true) →
      dedupe_hash (r ++ t ++ r') b = dedupe_hash t b) ∧
    (∀ (t b1 b2 : List Char), words b1 = words b2 →
      dedupe_hash t b1 = dedupe_hash t b2) ∧
    (∀ (p q b : List Char) (c : Char) (m n : ℕ), 3 ≤ m → 3 ≤ n →
      trimChars (p ++ List.replicate m c ++ q) = p ++ List.replicate m c ++ q →
      trimChars (p ++ List.replicate n c ++ q) = p ++ List.replicate n c ++ q →
      dedupe_hash (p ++ List.replicate m c ++ q) b =
        dedupe_hash (p ++ List.replicate n c ++ q) b) ∧
    (∀ (t p q : List Char) (c : Char) (m n : ℕ), 3 ≤ m → 3 ≤ n →
      trimChars (p ++ List.replicate m c ++ q) = p ++ List.replicate m c ++ q →
      trimChars (p ++ List.replicate n c ++ q) = p ++ List.replicate n c ++ q →
      dedupe_hash t (p ++ List.replicate m c ++ q) =
        dedupe_hash t (p ++ List.replicate n c ++ q)) := by
  have hbody_of_lower : ∀ (b1 b2 : List Char),
      b1.map toLowerChar = b2.map toLowerChar →
      normalize_body b1 = normalize_body b2 := by
    intro b1 b2 hb
    rw [normalize_body_eq_words, normalize_body_eq_words]
    have : ∀ b : List Char,
        (words b).map (fun w => collapseOut 3 none 0 (w.map toLowerChar)) =
          (words (b.map toLowerChar)).map (fun w => collapseOut 3 none 0 w) := by
      intro b
      rw [words_map_toLower, List.map_map]
      rfl
    rw [this b1, this b2, hb]
  refine ⟨?_, ?_, ?_, ?_, ?_⟩
  · intro t1 t2 b1 b2 ht hb
    apply dedupe_hash_congr
    · rw [← trim_map_toLower, ← trim_map_toLower, ht]
    · exact hbody_of_lower b1 b2 hb
  · intro t b r r' hr hr'
    apply dedupe_hash_congr
    · rw [trim_ws_right (r ++ t) r' hr', trim_ws_left r t hr]
    · rfl
  · intro t b1 b2 hw
    apply dedupe_hash_congr
    · rfl
    · rw [normalize_body_eq_words, normalize_body_eq_words, hw]
  · intro p q b c m n hm hn htm htn
    apply dedupe_hash_congr
    · rw [collapse_title_run p q c m hm htm, collapse_title_run p q c n hn htn]
    · rfl
  · intro t p q c m n hm hn htm htn
    apply dedupe_hash_congr
    · rfl
    · unfold normalize_body
      show [' '].intercalate (words (collapse_repeats
          ((trimChars (p ++ List.replicate m c ++ q)).map toLowerChar) 3)) = _
      rw [collapse_title_run p q c m hm htm]
      show _ = [' '].intercalate (words (collapse_repeats
          ((trimChars (p ++ List.replicate n c ++ q)).map toLowerChar) 3))
      rw [collapse_title_run p q c n hn htn]

/-- Witness for `dedupe_hash_amended` on concrete inputs: case folding, edge
whitespace of the title, body whitespace with equal words, and title/body runs
of 4 versus 5 repeated characters. -/
theorem dedupe_hash_amended_witness :
    dedupe_hash "AB".toList "C d".toList = dedupe_hash "ab".toList "c D".toList ∧
    dedupe_hash (" ".toList ++ "hey".toList ++ "\n".toList) "x".toList =
      dedupe_hash "hey".toList "x".toList ∧
    dedupe_hash "t".toList "a  b".toList = dedupe_hash "t".toList " a b ".toList ∧
    dedupe_hash ("he".toList ++ List.replicate 4 'y' ++ "!".toList) "x".toList =
      dedupe_hash ("he".toList ++ List.replicate 5 'y' ++ "!".toList) "x".toList ∧
    dedupe_hash "t".toList ("he".toList ++ List.replicate 4 'y' ++ "!".toList) =
      dedupe_hash "t".toList ("he".toList ++ List.replicate 5 'y' ++ "!".toList) := by
  refine ⟨?_, ?_, ?_, ?_, ?_⟩
  · exact dedupe_hash_amended.1 "AB".toList "ab".toList "C d".toList "c D".toList
      (by decide) (by decide)
  · exact dedupe_hash_amended.2.1 "hey".toList "x".toList " ".toList "\n".toList
      (by decide) (by decide)
  · exact dedupe_hash_amended.2.2.1 "t".toList "a  b".toList " a b ".toList (by decide)
  · exact dedupe_hash_amended.2.2.2.1 "he".toList "!".toList "x".toList 'y' 4 5
      (by norm_num) (by norm_num) (by decide) (by decide)
  · exact dedupe_hash_amended.2.2.2.2 "t".toList "he".toList "!".toList 'y' 4 5
      (by norm_num) (by norm_num) (by decide) (by decide)
